import Mathlib

/-!
Verification development for the `schedule` library (`src/schedule.py`).

The program computes, for a declaratively defined recurring calendar
schedule, the occurrence immediately before or after a reference instant,
and enumerates occurrences in a window.

Embedding conventions:
* An `Instant` is an integer count of seconds (the tests and spec use
  one-second granularity; "one unit of time" is one second).  A calendar
  date is an integer rata-die day number (day 1 = 0001-01-01 proleptic
  Gregorian), with `instant = rataDie * 86400 + secondsIntoDay`.
* The repository's `dates` helper module is not part of `src/`; its
  operations (`truncate`, `delta`, `date.combine`, `weekday`,
  `calendar.monthrange`) are modelled from the spec over the standard
  proleptic Gregorian calendar.  Python's floor division and modulo on a
  positive divisor agree with `Int.ediv` / `Int.emod`, which we use
  throughout.
* Python's unbounded recursion in `prev_step` / `next_step` (each can
  re-invoke itself with a clamped reference) is modelled with an explicit
  fuel parameter; fuel exhaustion (`none`) models non-termination.
-/

/-- Modelled from the spec: leap-year test of the proleptic Gregorian
calendar (standard library `calendar.isleap`). -/
def isLeap (y : Int) : Bool :=
  (y % 4 == 0 && y % 100 != 0) || y % 400 == 0

/-- Modelled from the spec: days in the year before month `m` (1..12),
ignoring leap years (CPython `_DAYS_BEFORE_MONTH`). -/
def daysBeforeMonth (m : Int) : Int :=
  if m ≤ 1 then 0
  else if m = 2 then 31
  else if m = 3 then 59
  else if m = 4 then 90
  else if m = 5 then 120
  else if m = 6 then 151
  else if m = 7 then 181
  else if m = 8 then 212
  else if m = 9 then 243
  else if m = 10 then 273
  else if m = 11 then 304
  else 334

/-- Modelled from the spec: number of days of month `m` given the leap
flag (CPython `_DAYS_IN_MONTH`). -/
def daysInMonth (leap : Bool) (m : Int) : Int :=
  if m = 2 then (if leap then 29 else 28)
  else if m = 4 ∨ m = 6 ∨ m = 9 ∨ m = 11 then 30
  else 31

/-- Days in the year before month `m`, leap-aware. -/
def dbm (leap : Bool) (m : Int) : Int :=
  daysBeforeMonth m + (if 2 < m ∧ leap then 1 else 0)

/-- Days before year `y`, i.e. rata die of (y-1)-12-31
(CPython `_days_before_year`). -/
def dby (y : Int) : Int :=
  365 * (y - 1) + (y - 1) / 4 - (y - 1) / 100 + (y - 1) / 400

/-- Rata-die day number of the calendar date `(y, m, d)`
(CPython `_ymd2ord`). -/
def toRd (y m d : Int) : Int :=
  dby y + dbm (isLeap y) m + d

/-- Length of month `m` of year `y`. -/
def mlen (y m : Int) : Int := daysInMonth (isLeap y) m

/-- Month lookup used when converting a day-of-year back to a month:
estimate then correct (CPython `_ord2ymd` month step). -/
def monthFind (leap : Bool) (n0 : Int) : Int :=
  let m1 := (n0 + 50) / 32
  if dbm leap m1 > n0 then m1 - 1 else m1

/-- Calendar date `(y, m, d)` of a rata-die day number
(CPython `_ord2ymd`: successive division by the 400/100/4/1-year cycle
lengths with the two end-of-cycle corrections). -/
def fromRd (rd : Int) : Int × Int × Int :=
  let n := rd - 1
  let n400 := n / 146097
  let r400 := n % 146097
  let n100 := r400 / 36524
  let r100 := r400 % 36524
  let n4 := r100 / 1461
  let r4 := r100 % 1461
  let n1 := r4 / 365
  let n0 := r4 % 365
  let y := 400 * n400 + 100 * n100 + 4 * n4 + n1 + 1
  if n1 = 4 ∨ n100 = 4 then (y - 1, 12, 31)
  else
    let leap := n1 == 3 && (n4 != 24 || n100 == 3)
    let m := monthFind leap n0
    (y, m, n0 - dbm leap m + 1)

/-- Rata die of the first day of the month with absolute month index `μ`
(month index: `12 * year + (month - 1)`). -/
def monthStart (μ : Int) : Int :=
  toRd (μ / 12) (μ % 12 + 1) 1

/-- Absolute month index of the month containing rata-die day `rd`. -/
def monthIdx (rd : Int) : Int :=
  12 * (fromRd rd).1 + (fromRd rd).2.1 - 1

/-- Rata die of the first day of year `y`. -/
def yearStart (y : Int) : Int := toRd y 1 1

/-- Weekday of a rata-die day, Monday = 0 (Python `date.weekday`;
0001-01-01 is a Monday). -/
def weekdayOf (rd : Int) : Int := (rd - 1) % 7

/-!  Instants. -/

/-- Rata-die day containing an instant. -/
def rdOf (ts : Int) : Int := ts / 86400

/-- Time of day of an instant, in seconds (Python `datetime.time()`). -/
def timeOf (ts : Int) : Int := ts % 86400

/-- Modelled from the spec: `dates.truncate(ts, 'day')`. -/
def truncDay (ts : Int) : Int := rdOf ts * 86400

/-- Modelled from the spec: `dates.truncate(ts, 'week')` — the preceding
Monday midnight. -/
def truncWeek (ts : Int) : Int := (rdOf ts - weekdayOf (rdOf ts)) * 86400

/-- Modelled from the spec: `dates.truncate(ts, 'month')`. -/
def truncMonth (ts : Int) : Int := monthStart (monthIdx (rdOf ts)) * 86400

/-- Modelled from the spec: `dates.truncate(ts, 'year')`. -/
def truncYear (ts : Int) : Int := yearStart (fromRd (rdOf ts)).1 * 86400

/-- Modelled from the spec: `dates.delta(ts, nDays=k)` (time of day kept). -/
def addDays (ts : Int) (k : Int) : Int := ts + 86400 * k

/-- Modelled from the spec: `dates.delta(ts, nMonths=k)`; the day of month
is clamped to the target month's length (only ever applied to month starts
by the schedule code, where no clamping occurs). -/
def addMonths (ts : Int) (k : Int) : Int :=
  let c := fromRd (rdOf ts)
  let μ := 12 * c.1 + c.2.1 - 1 + k
  let y := μ / 12
  let m := μ % 12 + 1
  toRd y m (min c.2.2 (mlen y m)) * 86400 + timeOf ts

/-- Modelled from the spec: `dates.delta(ts, nYears=k)`; day clamped as in
`addMonths` (only applied to year starts by the schedule code). -/
def addYears (ts : Int) (k : Int) : Int :=
  let c := fromRd (rdOf ts)
  let y := c.1 + k
  toRd y c.2.1 (min c.2.2 (mlen y c.2.1)) * 86400 + timeOf ts

/-- Modelled from the spec: `dates.date.combine(d.date(), t)` — the date
of `d` with time of day `t`. -/
def combine (d : Int) (t : Int) : Int := truncDay d + t

/-- Day of year of an instant, 1-based (Python `timetuple().tm_yday`). -/
def dayOfYear (ts : Int) : Int :=
  rdOf ts - yearStart (fromRd (rdOf ts)).1 + 1

/-- Day of month of an instant, 1-based (Python `.day`). -/
def dayOfMonth (ts : Int) : Int := (fromRd (rdOf ts)).2.2

/-- First-weekday and length of the month containing `ts`
(stdlib `calendar.monthrange(ts.year, ts.month)`). -/
def monthrange (ts : Int) : Int × Int :=
  let c := fromRd (rdOf ts)
  (weekdayOf (toRd c.1 c.2.1 1), mlen c.1 c.2.1)

/-!  The schedule data model (`src/schedule.py`). -/

/-- Recurrence kind (`sType` in the source). -/
inductive SType where
  | once
  | daily
  | weekly
  | monthly
  | yearly
deriving DecidableEq, Repr

/-- Stored week rules of a `Monthly` schedule.  The source keeps a dict
with keys 1..5; the day resolver only ever consults keys 1..5, so keys a
caller might smuggle in outside that range are unobservable and are not
stored. -/
structure MWeeks where
  w1 : List Int
  w2 : List Int
  w3 : List Int
  w4 : List Int
  w5 : List Int
deriving DecidableEq, Repr

/-- Lookup `weeks[k]`, empty for absent keys (`k in self.weeks` is false
for ordinals outside 1..5, so the membership tests come out false, which
the empty list reproduces). -/
def MWeeks.get (w : MWeeks) (k : Int) : List Int :=
  if k = 1 then w.w1
  else if k = 2 then w.w2
  else if k = 3 then w.w3
  else if k = 4 then w.w4
  else if k = 5 then w.w5
  else []

/-- A constructed schedule: the common state of the source's `Once`,
`Daily`, `Weekly`, `Monthly` and `Yearly` classes (`end` is a Lean
keyword, hence `end_`; `nInterval` and `interval` are unified as
`interval`). -/
structure Schedule where
  sType : SType
  start : Int
  end_ : Option Int
  interval : Int
  lDays : List Int
  weeks : MWeeks
deriving DecidableEq, Repr

/-- Insert into an ascending duplicate-free list (used to model Python's
`set` of days, read back as `sorted(list(days))`). -/
def insD (x : Int) : List Int → List Int
  | [] => [x]
  | y :: ys => if x < y then x :: y :: ys else if x = y then y :: ys else y :: insD x ys

/-- Insert into an ascending list keeping duplicates (used to model
Python's `sorted`). -/
def insS (x : Int) : List Int → List Int
  | [] => [x]
  | y :: ys => if x ≤ y then x :: y :: ys else y :: insS x ys

/-- Python's `sorted` on a list of ints. -/
def sortInts (l : List Int) : List Int := l.foldr insS []

namespace Schedule

/-- `start_of_period` of each kind (`Once.start_of_period`,
`Daily.start_of_period`, `Weekly.start_of_period`,
`Monthly.start_of_period`, `Yearly.start_of_period`). -/
def start_of_period (s : Schedule) (ts : Int) : Int :=
  match s.sType with
  | .once => truncDay ts
  | .daily => truncDay ts
  | .weekly => truncWeek ts
  | .monthly => truncMonth ts
  | .yearly => truncYear ts

/-- `period_day` of each kind: 0 for once/daily, `ts.weekday()` for
weekly, `ts.day` for monthly, `timetuple().tm_yday` for yearly. -/
def period_day (s : Schedule) (ts : Int) : Int :=
  match s.sType with
  | .once => 0
  | .daily => 0
  | .weekly => weekdayOf (rdOf ts)
  | .monthly => dayOfMonth ts
  | .yearly => dayOfYear ts

/-- `get_interval` of each kind.  For the recurring kinds: period count
from the schedule's first period to the period of `ts`, less its
remainder modulo `interval`, applied to the schedule's first period.
The source divides with Python `%` and `/` whose results on a positive
divisor coincide with Lean's `%` and `/` on `Int`; schedules are only
queried with `interval ≥ 1` (spec invariant). -/
def get_interval (s : Schedule) (ts : Int) : Int :=
  match s.sType with
  | .once => truncDay ts
  | .daily =>
    let start_period := truncDay s.start
    let ts_period := truncDay ts
    let dlt := (ts_period - start_period) / 86400
    addDays start_period (dlt - dlt % s.interval)
  | .weekly =>
    let start_period := truncWeek s.start
    let ts_period := truncWeek ts
    let dlt := (ts_period - start_period) / 86400 / 7
    addDays start_period (7 * (dlt - dlt % s.interval))
  | .monthly =>
    let start_period := truncMonth s.start
    let ts_period := truncMonth ts
    let dlt := ((fromRd (rdOf ts_period)).1 - (fromRd (rdOf start_period)).1) * 12 +
      ((fromRd (rdOf ts_period)).2.1 - (fromRd (rdOf start_period)).2.1)
    addMonths start_period (dlt - dlt % s.interval)
  | .yearly =>
    let start_period := truncYear s.start
    let ts_period := truncYear ts
    let dlt := (fromRd (rdOf ts_period)).1 - (fromRd (rdOf start_period)).1
    addYears start_period (dlt - dlt % s.interval)

/-- `next_interval` of each kind: `get_interval` advanced by `interval`
periods (`nInterval` days / `7 * interval` days / `interval` months /
`nInterval` years). -/
def next_interval (s : Schedule) (ts : Int) : Int :=
  match s.sType with
  | .once => addDays (s.get_interval ts) s.interval
  | .daily => addDays (s.get_interval ts) s.interval
  | .weekly => addDays (s.get_interval ts) (7 * s.interval)
  | .monthly => addMonths (s.get_interval ts) s.interval
  | .yearly => addYears (s.get_interval ts) s.interval

/-- `last_interval` of each kind: `get_interval` receded by `interval`
periods. -/
def last_interval (s : Schedule) (ts : Int) : Int :=
  match s.sType with
  | .once => addDays (s.get_interval ts) (-s.interval)
  | .daily => addDays (s.get_interval ts) (-s.interval)
  | .weekly => addDays (s.get_interval ts) (-(7 * s.interval))
  | .monthly => addMonths (s.get_interval ts) (-s.interval)
  | .yearly => addYears (s.get_interval ts) (-s.interval)

/-- `_offset`: monthly and yearly day lists are 1-based (`offset(d) = d-1`
in `Monthly.offset` / `Yearly.offset`); the other kinds have no `offset`
method and use the day as is. -/
def offset (s : Schedule) (day : Int) : Int :=
  match s.sType with
  | .monthly => day - 1
  | .yearly => day - 1
  | _ => day

/-- Loop body state of `Monthly.days`: walk `dom` over the month, tracking
the weekday `dow` (cyclic from the month's first weekday `sdow`) and the
week ordinal `week` (bumped whenever `dow` returns to `sdow`); add `dom`
when an ordinal-1..4 rule or the "last seven days" rule (key 5) matches.
The accumulator models the Python `set` as an ascending duplicate-free
list. -/
def daysAcc (weeks : MWeeks) (sdow startlastweek : Int) :
    List Int → Int → Int → List Int → List Int
  | [], _, _, acc => acc
  | dom :: rest, dow, week, acc =>
    let week' := if dow = sdow then week + 1 else week
    let acc1 := if week' ≠ 5 ∧ dow ∈ weeks.get week' then insD dom acc else acc
    let acc2 := if startlastweek ≤ dom ∧ dow ∈ weeks.get 5 then insD dom acc1 else acc1
    let dow' := if dow = 6 then 0 else dow + 1
    daysAcc weeks sdow startlastweek rest dow' week' acc2

/-- `days(ts)`: the base class returns `lDays`; `Monthly.days` resolves
the union of the explicit day list and the week rules over the month of
`ts`.  (A constructed `Monthly` always carries the base dict with keys
1..5, which is truthy, so the source's `if not self.weeks` early return
never fires for it.) -/
def days (s : Schedule) (ts : Int) : List Int :=
  match s.sType with
  | .monthly =>
    let sm := monthrange ts
    let startlastweek := sm.2 - 6
    daysAcc s.weeks sm.1 startlastweek
      ((List.range sm.2.toNat).map (fun k : Nat => (k : Int) + 1)) sm.1 0
      (s.lDays.foldr insD [])
  | _ => s.lDays

/-- The `for d in self.days(ts): if ts_day <= d: break` walk of
`next_step`; when the loop never breaks, `d` is left holding the last
element. -/
def nextWalkDay (ds : List Int) (ts_day : Int) : Int :=
  match ds.find? (fun d => decide (ts_day ≤ d)) with
  | some d => d
  | none => ds.getLastD 0

/-- The `for d in sorted(self.days(ts), reverse=True): if d <= ts_day:
break` walk of `prev_step`; `days(ts)` is ascending, so the descending
sort is its reverse. -/
def prevWalkDay (ds : List Int) (ts_day : Int) : Int :=
  match ds.reverse.find? (fun d => decide (d ≤ ts_day)) with
  | some d => d
  | none => ds.reverse.getLastD 0

/-- `self.end and candidate > self.end` (a datetime is always truthy, so
the first conjunct is presence of `end`). -/
def endExceeded (e : Option Int) (c : Int) : Bool :=
  match e with
  | some e0 => decide (e0 < c)
  | none => false

/-- The candidate instant computed by the body of `next_step` (source
lines 224-256): interval/period/day lookup, the strictness bump of
`ts_day`, the four-way branch choosing the step day, and the combination
with the schedule's time of day. -/
def next_candidate (s : Schedule) (ts : Int) : Int :=
  let interval := s.get_interval ts
  let ts_period := s.start_of_period ts
  let ts_day0 := s.period_day ts
  let ts_day := if timeOf s.start ≤ timeOf ts then ts_day0 + 1 else ts_day0
  let ds := s.days ts
  let step_day :=
    if interval < ts_period then
      addDays (s.next_interval ts) (s.offset (ds.headD 0))
    else if ds.getLastD 0 < ts_day then
      addDays (s.next_interval ts) (s.offset (ds.headD 0))
    else if ts_day ≤ ds.headD 0 then
      addDays interval (s.offset (ds.headD 0))
    else
      addDays interval (s.offset (nextWalkDay ds ts_day))
  combine step_day (timeOf s.start)

/-- `next_step` (source lines 215-263) with explicit recursion fuel: the
source re-invokes itself with reference `start - 1s` when the candidate
precedes `start`; fuel exhaustion models non-termination of that
unbounded recursion. -/
def next_step_go (s : Schedule) : Nat → Int → Option Int
  | 0, _ => none
  | fuel + 1, ts =>
    let ns := next_candidate s ts
    if endExceeded s.end_ ns then none
    else if ns < s.start then next_step_go s fuel (s.start - 1)
    else some ns

/-- The candidate instant computed by the body of `prev_step` (source
lines 172-205), mirror image of `next_candidate`. -/
def prev_candidate (s : Schedule) (ts : Int) : Int :=
  let interval := s.get_interval ts
  let ts_period := s.start_of_period ts
  let ts_day0 := s.period_day ts
  let ts_day := if timeOf ts ≤ timeOf s.start then ts_day0 - 1 else ts_day0
  let ds := s.days ts
  let step_day :=
    if interval < ts_period then
      addDays interval (s.offset (ds.getLastD 0))
    else if ts_day < ds.headD 0 then
      addDays (s.last_interval ts) (s.offset (ds.getLastD 0))
    else if ds.getLastD 0 ≤ ts_day then
      addDays interval (s.offset (ds.getLastD 0))
    else
      addDays interval (s.offset (prevWalkDay ds ts_day))
  combine step_day (timeOf s.start)

/-- `prev_step` (source lines 163-213) with explicit recursion fuel: the
source re-invokes itself with reference `end + 1s` when the candidate
exceeds `end`. -/
def prev_step_go (s : Schedule) : Nat → Int → Option Int
  | 0, _ => none
  | fuel + 1, ts =>
    let ps := prev_candidate s ts
    if ps < s.start then none
    else if endExceeded s.end_ ps then prev_step_go s fuel (s.end_.getD 0 + 1)
    else some ps

/-- Recursion budget used by the wrappers; far above any depth the
algorithm reaches when it terminates (it retries at most once per level
that makes progress). -/
def stepFuel : Nat := 9

def next_step (s : Schedule) (ts : Int) : Option Int :=
  next_step_go s stepFuel ts

def prev_step (s : Schedule) (ts : Int) : Option Int :=
  prev_step_go s stepFuel ts

/-- Modelled from the spec: `first_step() = next_step(start − 1 time
unit)` (§4.2).  The source's `first_step` (line 266) is missing its
closing parenthesis and does not parse; this definition follows the
spec's wording, which matches the truncated source text. -/
def first_step (s : Schedule) : Option Int :=
  s.next_step (s.start - 1)

/-- `last_step`: `prev_step(end + 1s)` when `end` is set, else `None`
(source line 268-269). -/
def last_step (s : Schedule) : Option Int :=
  match s.end_ with
  | some e => s.prev_step (e + 1)
  | none => none

/-- The `steps` generator loop (source lines 284-290): repeatedly advance
the cursor with `next_step`, yielding while the result exists and is at
most `before`.  Fuel bounds the number of loop iterations; `none` models
a loop that has not finished within the given fuel. -/
def steps_go (s : Schedule) (before : Int) : Nat → Int → Option (List Int)
  | 0, _ => none
  | fuel + 1, cursor =>
    match s.next_step cursor with
    | some st =>
      if st ≤ before then (steps_go s before fuel st).map (fun l => st :: l)
      else some []
    | none => some []

/-- Default lower bound of `steps` (source line 278):
`start - 1 second`. -/
def steps_after_default (s : Schedule) : Int := s.start - 1

/-- Default upper bound of `steps` (source lines 279-283): `end + 1
second` when `end` is set, else `start + 3 months`. -/
def steps_before_default (s : Schedule) : Int :=
  match s.end_ with
  | some e => e + 1
  | none => addMonths s.start 3

/-- `steps(after, before)` with the source's defaulting of absent
bounds. -/
def steps (s : Schedule) (after? before? : Option Int) (fuel : Nat) :
    Option (List Int) :=
  steps_go s (before?.getD (steps_before_default s)) fuel
    (after?.getD (steps_after_default s))

end Schedule

/-!  The factory and the constructors (validation). -/

/-- A reported violation: `SchedulerError.add_field` entries carry a field
name, a reason and an optional offending value; constructor-raised errors
(`DnaError(...)` in the source, the spec's ConstructionError) carry plain
text. -/
inductive Msg where
  | fieldMsg (name reason : String) (val : Option Int)
  | textMsg (txt : String)
deriving DecidableEq, Repr

/-- Does a message report a violation of the given field? -/
def Msg.isField (m : Msg) (f : String) : Bool :=
  match m with
  | .fieldMsg n _ _ => n == f
  | .textMsg _ => false

/-- Store raw week rules: keys 1..5 overwrite the base dict entry
(`self.weeks[int(a)] = sorted(...)`); later duplicates win as in a dict
comprehension; keys outside 1..5 are unobservable (see `MWeeks`). -/
def storeWeeks (weeks : List (Int × List Int)) : MWeeks :=
  weeks.foldl
    (fun acc kv =>
      if kv.1 = 1 then { acc with w1 := sortInts kv.2 }
      else if kv.1 = 2 then { acc with w2 := sortInts kv.2 }
      else if kv.1 = 3 then { acc with w3 := sortInts kv.2 }
      else if kv.1 = 4 then { acc with w4 := sortInts kv.2 }
      else if kv.1 = 5 then { acc with w5 := sortInts kv.2 }
      else acc)
    ⟨[], [], [], [], []⟩

/-- `Once.__init__`: no checks; `end` is set to `start`.  An absent
`start` (recorded separately by the factory) makes the result
unobservable, so a dummy value stands in for it. -/
def mkOnce (start : Option Int) : Except (List Msg) Schedule :=
  .ok ⟨.once, start.getD 0, some (start.getD 0), 1, [0], ⟨[], [], [], [], []⟩⟩

/-- `Daily.__init__`: no checks. -/
def mkDaily (start : Option Int) (end_ : Option Int) (interval : Int) :
    Except (List Msg) Schedule :=
  .ok ⟨.daily, start.getD 0, end_, interval, [0], ⟨[], [], [], [], []⟩⟩

/-- `Weekly.__init__`: start must be present; days of week in 0..6
(first offender aborts, spec §7's single-cause ConstructionError).
Modelled from the spec: the source raises `DnaError`, a name the module
never defines; per spec §7 such constructor errors surface through the
factory's aggregation, so they are modelled as catchable messages. -/
def mkWeekly (lDays : List Int) (start : Option Int) (end_ : Option Int)
    (interval : Int) : Except (List Msg) Schedule :=
  if start.isNone then .error [.textMsg "Must have a start date."]
  else
    match lDays.find? (fun i => decide (i < 0) || decide (6 < i)) with
    | some _ => .error [.textMsg "Days of week must be in (0..6)."]
    | none => .ok ⟨.weekly, start.getD 0, end_, interval, sortInts lDays, ⟨[], [], [], [], []⟩⟩

/-- `Monthly.__init__`: start present, truthy interval, days of month in
1..31; stores sorted days and the week rules. -/
def mkMonthly (lDays : List Int) (start : Option Int) (end_ : Option Int)
    (interval : Int) (weeks : List (Int × List Int)) : Except (List Msg) Schedule :=
  if start.isNone then .error [.textMsg "Must have a start date."]
  else if interval = 0 then .error [.textMsg "Interval must be > 0 for recurring schedules."]
  else
    match lDays.find? (fun i => decide (i < 1) || decide (31 < i)) with
    | some _ => .error [.textMsg "Days of month must be in (1..31)."]
    | none => .ok ⟨.monthly, start.getD 0, end_, interval, sortInts lDays, storeWeeks weeks⟩

/-- `Yearly.__init__`: start present and days nonempty (one shared
message), days of year in 1..366. -/
def mkYearly (lDays : List Int) (start : Option Int) (end_ : Option Int)
    (interval : Int) : Except (List Msg) Schedule :=
  if start.isNone || lDays.isEmpty then .error [.textMsg "Must have a start date."]
  else
    match lDays.find? (fun i => decide (i < 1) || decide (366 < i)) with
    | some _ => .error [.textMsg "Days of year must be in (1..366)."]
    | none => .ok ⟨.yearly, start.getD 0, end_, interval, sortInts lDays, ⟨[], [], [], [], []⟩⟩

/-- The weeks-cleaning loop of the factory's monthly branch: walk the raw
rules in order, recording an `invalid week` for keys outside 1..5 and an
`invalid day` for days outside 0..6, and noting whether any valid
week/day pair was seen (`hasweeks`). -/
def weeksErrs (weeks : List (Int × List Int)) : List Msg × Bool :=
  weeks.foldl
    (fun st kv =>
      if kv.1 < 1 ∨ 5 < kv.1 then
        (st.1 ++ [Msg.fieldMsg "weeks" "invalid week" (some kv.1)], st.2)
      else
        (sortInts kv.2).foldl
          (fun st2 b =>
            if 0 ≤ b ∧ b ≤ 6 then (st2.1, true)
            else (st2.1 ++ [Msg.fieldMsg "weeks" "invalid day" (some b)], st2.2))
          st)
    ([], false)

/-- `factory(start, end, repeat, interval, days, weeks)` (source lines
53-110): collect field violations, construct the kind, merge
constructor-raised messages, and raise the aggregate when nonempty.
Note the source's day/weeks validation block is guarded by `and not
days`, so it only runs when `days` is empty. -/
def factory (start : Option Int) (end_ : Option Int) (repeat_ : String)
    (interval : Int) (days : List Int) (weeks : List (Int × List Int)) :
    Except (List Msg) Schedule :=
  let e1 : List Msg := if start.isNone then [Msg.fieldMsg "start" "undefined" none] else []
  let e2 := e1 ++
    (if repeat_ = "once" ∨ repeat_ = "daily" ∨ repeat_ = "weekly" ∨
        repeat_ = "monthly" ∨ repeat_ = "yearly" then []
     else [Msg.fieldMsg "repeat" "unknown" none])
  let e3 := e2 ++
    (if repeat_ ≠ "once" ∧ interval = 0 then [Msg.fieldMsg "interval" "undefined" none]
     else [])
  let e4 := e3 ++
    (if (repeat_ = "weekly" ∨ repeat_ = "monthly" ∨ repeat_ = "yearly") ∧ days = [] then
      (if repeat_ = "monthly" then
        (weeksErrs weeks).1 ++
          (if (weeksErrs weeks).2 = false ∧ days = [] then
            [Msg.fieldMsg "days" "undefined" none]
          else [])
      else if repeat_ = "weekly" then
        (if days = [] then [Msg.fieldMsg "days" "undefined" none] else [])
      else [])
     else [])
  let ctorRes : Except (List Msg) Schedule :=
    if repeat_ = "once" then mkOnce start
    else if repeat_ = "daily" then mkDaily start end_ interval
    else if repeat_ = "weekly" then mkWeekly days start end_ interval
    else if repeat_ = "monthly" then mkMonthly days start end_ interval weeks
    else if repeat_ = "yearly" then mkYearly days start end_ interval
    else mkOnce start  -- unknown repeat: `schedule` stays unbound in the
      -- source and the recorded `repeat unknown` violation is raised
      -- before it could be returned; the stand-in is unobservable.
  let ctorErrs : List Msg := match ctorRes with
    | .error es => es
    | .ok _ => []
  let eAll := e4 ++ ctorErrs
  if eAll = [] then ctorRes else .error eAll

/-!  Validity: the spec §3 invariants guaranteed by factory-checked
construction, used as the hypothesis of the general theorems. -/

/-- Is the list ascending (Python `sorted` output)? -/
def sortedB : List Int → Bool
  | [] => true
  | [_] => true
  | x :: y :: ys => decide (x ≤ y) && sortedB (y :: ys)

/-- Are all entries within `lo..hi`? -/
def allInRange (lo hi : Int) (l : List Int) : Bool :=
  l.all fun d => decide (lo ≤ d) && decide (d ≤ hi)

/-- Spec §3 construction invariants of a schedule value, per kind. -/
def validb (s : Schedule) : Bool :=
  decide (1 ≤ s.interval) &&
  match s.sType with
  | .once => decide (s.interval = 1) && decide (s.lDays = [0]) &&
      decide (s.end_ = some s.start)
  | .daily => decide (s.lDays = [0])
  | .weekly => !s.lDays.isEmpty && sortedB s.lDays && allInRange 0 6 s.lDays
  | .monthly => sortedB s.lDays && allInRange 1 31 s.lDays &&
      allInRange 0 6 s.weeks.w1 && allInRange 0 6 s.weeks.w2 &&
      allInRange 0 6 s.weeks.w3 && allInRange 0 6 s.weeks.w4 &&
      allInRange 0 6 s.weeks.w5 &&
      (!s.lDays.isEmpty || !s.weeks.w1.isEmpty || !s.weeks.w2.isEmpty ||
        !s.weeks.w3.isEmpty || !s.weeks.w4.isEmpty || !s.weeks.w5.isEmpty)
  | .yearly => !s.lDays.isEmpty && sortedB s.lDays && allInRange 1 366 s.lDays

/-- A valid schedule (spec §3). -/
def Valid (s : Schedule) : Prop := validb s = true

/-- Number of periods (spec §4.1: days, weeks, months or years) from
instant `a` to instant `b`, both period starts — the spec's measuring
stick for `get_interval`'s grid. -/
def periodsBetween (s : Schedule) (a b : Int) : Int :=
  match s.sType with
  | .once => (b - a) / 86400
  | .daily => (b - a) / 86400
  | .weekly => (b - a) / (7 * 86400)
  | .monthly => monthIdx (rdOf b) - monthIdx (rdOf a)
  | .yearly => (fromRd (rdOf b)).1 - (fromRd (rdOf a)).1

/-!  Concrete schedules and instants used by the claim analyses. -/

/-- 2011-01-01 10:00:00. -/
def t2011jan1 : Int := toRd 2011 1 1 * 86400 + 36000

/-- Monthly schedule on day 31 of every second month starting
2011-01-01 10:00, no end: the `factory` accepts it (days within 1..31). -/
def mOverflow : Schedule := ⟨.monthly, t2011jan1, none, 2, [31], ⟨[], [], [], [], []⟩⟩

/-- 2011-09-15 00:00:00. -/
def t2011sep15 : Int := toRd 2011 9 15 * 86400

/-- 2011-10-01 10:00:00 — the occurrence `next_step` computes from
2011-09-15 for `mOverflow` (September has no day 31; the day offset
spills into October). -/
def t2011oct1 : Int := toRd 2011 10 1 * 86400 + 36000

/-- 2011-10-01 00:30:00. -/
def tOct1half : Int := toRd 2011 10 1 * 86400 + 1800

/-- The `mOverflow` schedule bounded by end = 2011-10-01 00:30:00. -/
def mOverflowEnd : Schedule := ⟨.monthly, t2011jan1, some tOct1half, 2, [31], ⟨[], [], [], [], []⟩⟩

/-- The Once schedule `mkOnce` builds from start 2011-01-01 10:00 (its
`end` is set to its `start`). -/
def oOnce : Schedule := ⟨.once, t2011jan1, some t2011jan1, 1, [0], ⟨[], [], [], [], []⟩⟩

/-- Daily schedule starting 2012-03-02 12:00:00, every day, no end. -/
def dDaily : Schedule :=
  ⟨.daily, toRd 2012 3 2 * 86400 + 43200, none, 1, [0], ⟨[], [], [], [], []⟩⟩

/-- Daily schedule every 3 days from 2012-01-04 12:00 to 2012-01-16 12:00
(the `steps` enumeration scenario of the test suite). -/
def dSteps : Schedule :=
  ⟨.daily, toRd 2012 1 4 * 86400 + 43200, some (toRd 2012 1 16 * 86400 + 43200), 3, [0],
    ⟨[], [], [], [], []⟩⟩

/-- Monthly schedule on the last Friday (weeks = 5 ↦ [4]), starting
2014-02-01, no explicit days. -/
def mWeek5 : Schedule :=
  ⟨.monthly, toRd 2014 2 1 * 86400, none, 1, [], ⟨[], [], [], [], [4]⟩⟩
/-!  Calendar correctness. -/

/-- Finite check that the month estimate-and-correct step is right for
every day-of-year value and both leap flags. -/
def monthFindOk : Bool :=
  (List.range 365).all fun k =>
    [false, true].all fun leap =>
      let n0 : Int := k
      let m := monthFind leap n0
      decide (1 ≤ m) && decide (m ≤ 12) &&
      decide (dbm leap m ≤ n0) && decide (n0 < dbm leap m + daysInMonth leap m)

set_option maxRecDepth 20000 in
theorem monthFind_check : monthFindOk = true := by decide

theorem monthFind_ok (leap : Bool) (n0 : Int) (h0 : 0 ≤ n0) (h1 : n0 < 365) :
    1 ≤ monthFind leap n0 ∧ monthFind leap n0 ≤ 12 ∧
    dbm leap (monthFind leap n0) ≤ n0 ∧
    n0 < dbm leap (monthFind leap n0) + daysInMonth leap (monthFind leap n0) := by
  have hmem : n0.toNat ∈ List.range 365 := by
    rw [List.mem_range]; omega
  have h := monthFind_check
  rw [monthFindOk, List.all_eq_true] at h
  have h2 := h _ hmem
  rw [List.all_eq_true] at h2
  have h3 : leap ∈ [false, true] := by cases leap <;> simp
  have h4 := h2 _ h3
  simp only [Bool.and_eq_true, decide_eq_true_eq] at h4
  have hn : (n0.toNat : Int) = n0 := by omega
  rw [hn] at h4
  exact ⟨h4.1.1.1, h4.1.1.2, h4.1.2, h4.2⟩

theorem isLeap_true_iff (y : Int) :
    isLeap y = true ↔ ((y % 4 = 0 ∧ ¬ y % 100 = 0) ∨ y % 400 = 0) := by
  simp [isLeap]

theorem dby_decomp (a b c e : Int) (hb0 : 0 ≤ b) (hb1 : b ≤ 3)
    (hc0 : 0 ≤ c) (hc1 : c ≤ 24) (he0 : 0 ≤ e) (he1 : e ≤ 3) :
    dby (400 * a + 100 * b + 4 * c + e + 1) =
      146097 * a + 36524 * b + 1461 * c + 365 * e := by
  unfold dby; omega

/-- The date components produced by `fromRd` are in range, and `toRd`
inverts `fromRd`. -/
theorem fromRd_spec (rd : Int) :
    1 ≤ (fromRd rd).2.1 ∧ (fromRd rd).2.1 ≤ 12 ∧
    1 ≤ (fromRd rd).2.2 ∧ (fromRd rd).2.2 ≤ mlen (fromRd rd).1 (fromRd rd).2.1 ∧
    toRd (fromRd rd).1 (fromRd rd).2.1 (fromRd rd).2.2 = rd := by
  set a := (rd - 1) / 146097 with ha
  set r1 := (rd - 1) % 146097 with hr1
  set b := r1 / 36524 with hb
  set r2 := r1 % 36524 with hr2
  set c := r2 / 1461 with hc
  set r3 := r2 % 1461 with hr3
  set e := r3 / 365 with he
  set n0 := r3 % 365 with hn0
  clear_value a r1 b r2 c r3 e n0
  have hbb : 0 ≤ b ∧ b ≤ 4 := by omega
  have hcc : 0 ≤ c ∧ c ≤ 24 := by omega
  have hee : 0 ≤ e ∧ e ≤ 4 := by omega
  have hnn : 0 ≤ n0 ∧ n0 < 365 := by omega
  simp only [fromRd]
  rw [← ha, ← hr1, ← hb, ← hr2, ← hc, ← hr3, ← he, ← hn0]
  split
  · -- end-of-cycle corrections: the date is Dec 31 of a leap year.
    rename_i hedge
    have hfacts : (e = 4 ∧ r3 = 1460 ∧ n0 = 0 ∧ c ≤ 23 ∧ b ≤ 3) ∨
        (b = 4 ∧ r2 = 0 ∧ c = 0 ∧ e = 0 ∧ n0 = 0) := by omega
    refine ⟨by norm_num, by norm_num, by norm_num, ?_, ?_⟩
    · show (31 : Int) ≤ mlen (400 * a + 100 * b + 4 * c + e + 1 - 1) 12
      simp [mlen, daysInMonth]
    · show toRd (400 * a + 100 * b + 4 * c + e + 1 - 1) 12 31 = rd
      rcases hfacts with ⟨he4, hr3v, hn0v, hc23, hb3⟩ | ⟨hb4, hr2v, hcv, hev, hn0v⟩
      · rw [show (400 * a + 100 * b + 4 * c + e + 1 - 1 : Int)
              = 400 * a + 100 * b + 4 * c + 3 + 1 by omega]
        have hl : isLeap (400 * a + 100 * b + 4 * c + 3 + 1) = true := by
          rw [isLeap_true_iff]; omega
        rw [toRd, hl]
        rw [show dbm true 12 = 335 by norm_num [dbm, daysBeforeMonth]]
        rw [dby_decomp a b c 3 hbb.1 hb3 hcc.1 (by omega) (by omega) (by omega)]
        omega
      · rw [show (400 * a + 100 * b + 4 * c + e + 1 - 1 : Int)
              = 400 * a + 100 * 3 + 4 * 24 + 3 + 1 by omega]
        have hl : isLeap (400 * a + 100 * 3 + 4 * 24 + 3 + 1) = true := by
          rw [isLeap_true_iff]; omega
        rw [toRd, hl]
        rw [show dbm true 12 = 335 by norm_num [dbm, daysBeforeMonth]]
        rw [dby_decomp a 3 24 3 (by omega) (by omega) (by omega) (by omega)
              (by omega) (by omega)]
        omega
  · -- main case
    rename_i hedge
    have hb3 : b ≤ 3 := by omega
    have he3 : e ≤ 3 := by omega
    set lp := (e == 3 && (c != 24 || b == 3)) with hlp
    have hleap : isLeap (400 * a + 100 * b + 4 * c + e + 1) = lp := by
      cases hv : lp
      · rw [hlp] at hv
        rw [← Bool.not_eq_true, isLeap_true_iff]
        simp only [Bool.and_eq_false_iff, Bool.or_eq_false_iff,
          beq_eq_false_iff_ne, ne_eq, bne_eq_false_iff_eq] at hv
        push_neg
        constructor
        · intro hmod4
          rcases hv with hv | ⟨hv1, hv2⟩
          · omega
          · omega
        · rcases hv with hv | ⟨hv1, hv2⟩
          · omega
          · omega
      · rw [hlp] at hv
        simp only [Bool.and_eq_true, Bool.or_eq_true, beq_iff_eq, bne_iff_ne] at hv
        rw [isLeap_true_iff]
        rcases hv.2 with hv2 | hv2
        · left; omega
        · omega
    have hm := monthFind_ok lp n0 (by omega) (by omega)
    set m := monthFind lp n0 with hmm
    refine ⟨?_, ?_, ?_, ?_, ?_⟩
    · show (1 : Int) ≤ m
      omega
    · show m ≤ 12
      omega
    · show (1 : Int) ≤ n0 - dbm lp m + 1
      omega
    · show n0 - dbm lp m + 1 ≤ mlen (400 * a + 100 * b + 4 * c + e + 1) m
      simp only [mlen, hleap]
      omega
    · show toRd (400 * a + 100 * b + 4 * c + e + 1) m (n0 - dbm lp m + 1) = rd
      rw [toRd, hleap]
      rw [dby_decomp a b c e hbb.1 hb3 hcc.1 hcc.2 hee.1 he3]
      omega

theorem daysInMonth_bounds (leap : Bool) (m : Int) :
    28 ≤ daysInMonth leap m ∧ daysInMonth leap m ≤ 31 := by
  unfold daysInMonth
  split_ifs <;> omega

theorem mlen_bounds (y m : Int) : 28 ≤ mlen y m ∧ mlen y m ≤ 31 := by
  unfold mlen; exact daysInMonth_bounds _ m

theorem dbm_bounds (leap : Bool) (m : Int) (h1 : 1 ≤ m) (h2 : m ≤ 12) :
    0 ≤ dbm leap m ∧
    dbm leap m + daysInMonth leap m ≤ 365 + (if leap = true then 1 else 0) := by
  interval_cases m <;> cases leap <;> simp [dbm, daysBeforeMonth, daysInMonth]

theorem dbm_succ (leap : Bool) (m : Int) (h1 : 1 ≤ m) (h2 : m ≤ 11) :
    dbm leap (m + 1) = dbm leap m + daysInMonth leap m := by
  interval_cases m <;> cases leap <;> simp [dbm, daysBeforeMonth, daysInMonth]

theorem dbm_one (l : Bool) : dbm l 1 = 0 := by cases l <;> rfl

theorem dbm_twelve (l : Bool) : dbm l 12 = 334 + (if l = true then 1 else 0) := by
  cases l <;> rfl

theorem dim_twelve (l : Bool) : daysInMonth l 12 = 31 := by cases l <;> rfl

theorem toRd_d (y m d : Int) : toRd y m d = toRd y m 1 + (d - 1) := by
  unfold toRd; ring

theorem yearStart_eq (y : Int) : yearStart y = dby y + 1 := by
  unfold yearStart toRd
  rw [dbm_one]
  omega

theorem yearStart_succ (y : Int) :
    yearStart (y + 1) = yearStart y + 365 + (if isLeap y = true then 1 else 0) := by
  rw [yearStart_eq, yearStart_eq]
  by_cases h : isLeap y = true
  · rw [if_pos h]
    rw [isLeap_true_iff] at h
    unfold dby
    omega
  · rw [if_neg h]
    have h2 : ¬ ((y % 4 = 0 ∧ ¬ y % 100 = 0) ∨ y % 400 = 0) := by
      rw [← isLeap_true_iff]; exact h
    unfold dby
    omega

theorem toRd_monthStart (y m d : Int) (h1 : 1 ≤ m) (h2 : m ≤ 12) :
    toRd y m d = monthStart (12 * y + m - 1) + (d - 1) := by
  unfold monthStart
  rw [show (12 * y + m - 1) / 12 = y by omega,
    show (12 * y + m - 1) % 12 + 1 = m by omega]
  rw [toRd_d y m d]

theorem monthStart_succ (μ : Int) :
    monthStart (μ + 1) = monthStart μ + mlen (μ / 12) (μ % 12 + 1) := by
  rcases lt_or_ge (μ % 12) 11 with hr | hr
  · have h1 : (μ + 1) / 12 = μ / 12 := by omega
    have h2 : (μ + 1) % 12 + 1 = (μ % 12 + 1) + 1 := by omega
    unfold monthStart mlen
    rw [h1, h2]
    unfold toRd
    rw [dbm_succ _ _ (by omega) (by omega)]
    ring
  · have hr11 : μ % 12 = 11 := by omega
    have h1 : (μ + 1) / 12 = μ / 12 + 1 := by omega
    have h2 : (μ + 1) % 12 + 1 = 1 := by omega
    unfold monthStart mlen
    rw [h1, h2, hr11]
    rw [show (11 : Int) + 1 = 12 from rfl]
    unfold toRd
    rw [dbm_one, dbm_twelve, dim_twelve]
    have hs := yearStart_succ (μ / 12)
    rw [yearStart_eq, yearStart_eq] at hs
    by_cases h : isLeap (μ / 12) = true
    · rw [if_pos h] at hs ⊢
      omega
    · rw [if_neg h] at hs ⊢
      omega

theorem monthStart_add (μ : Int) (k : Nat) :
    monthStart μ + 28 * k ≤ monthStart (μ + k) ∧
    monthStart (μ + k) ≤ monthStart μ + 31 * k := by
  induction k with
  | zero => simp
  | succ n ih =>
    have hc : μ + ((n : Int) + 1) = (μ + n) + 1 := by ring
    have hs := monthStart_succ (μ + n)
    have hb := mlen_bounds ((μ + n) / 12) ((μ + n) % 12 + 1)
    push_cast
    rw [hc, hs]
    push_cast at ih
    omega

theorem monthStart_lt_of_lt (μ ν : Int) (h : μ < ν) : monthStart μ < monthStart ν := by
  have hk : ν = μ + ((ν - μ).toNat : Int) := by omega
  have hm := (monthStart_add μ (ν - μ).toNat).1
  rw [← hk] at hm
  omega

theorem monthStart_le_of_le (μ ν : Int) (h : μ ≤ ν) : monthStart μ ≤ monthStart ν := by
  rcases eq_or_lt_of_le h with h1 | h1
  · rw [h1]
  · exact le_of_lt (monthStart_lt_of_lt μ ν h1)

theorem rd_decomp (rd : Int) :
    monthStart (monthIdx rd) + ((fromRd rd).2.2 - 1) = rd := by
  have h := fromRd_spec rd
  have h2 := toRd_monthStart (fromRd rd).1 (fromRd rd).2.1 (fromRd rd).2.2 h.1 h.2.1
  unfold monthIdx
  omega

theorem rd_month_bounds (rd : Int) :
    monthStart (monthIdx rd) ≤ rd ∧ rd < monthStart (monthIdx rd + 1) := by
  have h := fromRd_spec rd
  have hd := rd_decomp rd
  have hs := monthStart_succ (monthIdx rd)
  have hy : monthIdx rd / 12 = (fromRd rd).1 := by unfold monthIdx; omega
  have hm : monthIdx rd % 12 + 1 = (fromRd rd).2.1 := by unfold monthIdx; omega
  rw [hy, hm] at hs
  omega

theorem fromRd_toRd (y m d : Int) (h1 : 1 ≤ m) (h2 : m ≤ 12) (h3 : 1 ≤ d)
    (h4 : d ≤ mlen y m) : fromRd (toRd y m d) = (y, m, d) := by
  have h := fromRd_spec (toRd y m d)
  have e1 := toRd_monthStart y m d h1 h2
  have e2 := toRd_monthStart (fromRd (toRd y m d)).1 (fromRd (toRd y m d)).2.1
    (fromRd (toRd y m d)).2.2 h.1 h.2.1
  have s1 := monthStart_succ (12 * y + m - 1)
  have s2 := monthStart_succ (12 * (fromRd (toRd y m d)).1 + (fromRd (toRd y m d)).2.1 - 1)
  rw [show (12 * y + m - 1) / 12 = y by omega,
    show (12 * y + m - 1) % 12 + 1 = m by omega] at s1
  rw [show (12 * (fromRd (toRd y m d)).1 + (fromRd (toRd y m d)).2.1 - 1) / 12
      = (fromRd (toRd y m d)).1 by omega,
    show (12 * (fromRd (toRd y m d)).1 + (fromRd (toRd y m d)).2.1 - 1) % 12 + 1
      = (fromRd (toRd y m d)).2.1 by omega] at s2
  have hμ : 12 * y + m - 1 = 12 * (fromRd (toRd y m d)).1 + (fromRd (toRd y m d)).2.1 - 1 := by
    by_contra hne
    rcases lt_or_gt_of_ne hne with hlt | hgt
    · have hle := monthStart_le_of_le (12 * y + m - 1 + 1)
        (12 * (fromRd (toRd y m d)).1 + (fromRd (toRd y m d)).2.1 - 1) (by omega)
      omega
    · have hle := monthStart_le_of_le
        (12 * (fromRd (toRd y m d)).1 + (fromRd (toRd y m d)).2.1 - 1 + 1)
        (12 * y + m - 1) (by omega)
      omega
  have hy : (fromRd (toRd y m d)).1 = y := by omega
  have hm : (fromRd (toRd y m d)).2.1 = m := by omega
  have hμeq : monthStart (12 * y + m - 1)
      = monthStart (12 * (fromRd (toRd y m d)).1 + (fromRd (toRd y m d)).2.1 - 1) := by
    rw [hμ]
  have hd : (fromRd (toRd y m d)).2.2 = d := by omega
  have hfr : fromRd (toRd y m d)
      = ((fromRd (toRd y m d)).1, (fromRd (toRd y m d)).2.1, (fromRd (toRd y m d)).2.2) := rfl
  rw [hfr, hy, hm, hd]

theorem monthIdx_monthStart (μ : Int) : monthIdx (monthStart μ) = μ := by
  have h := fromRd_toRd (μ / 12) (μ % 12 + 1) 1 (by omega) (by omega) (by omega)
    (by have := mlen_bounds (μ / 12) (μ % 12 + 1); omega)
  unfold monthIdx
  unfold monthStart
  rw [h]
  simp
  omega

theorem rd_year_bounds (rd : Int) :
    yearStart ((fromRd rd).1) ≤ rd ∧ rd < yearStart ((fromRd rd).1 + 1) := by
  have h := fromRd_spec rd
  have hb := dbm_bounds (isLeap (fromRd rd).1) (fromRd rd).2.1 h.1 h.2.1
  have hs := yearStart_succ (fromRd rd).1
  have he := yearStart_eq (fromRd rd).1
  have h5 := h.2.2.2.2
  unfold toRd at h5
  have h6 := h.2.2.2.1
  unfold mlen at h6
  by_cases hl : isLeap (fromRd rd).1 = true
  · rw [if_pos hl] at hs hb
    omega
  · rw [if_neg hl] at hs hb
    omega

theorem yearStart_add (y : Int) (k : Nat) :
    yearStart y + 365 * k ≤ yearStart (y + k) ∧
    yearStart (y + k) ≤ yearStart y + 366 * k := by
  induction k with
  | zero => simp
  | succ n ih =>
    have hc : y + ((n : Int) + 1) = (y + n) + 1 := by ring
    have hs := yearStart_succ (y + n)
    push_cast
    rw [hc, hs]
    push_cast at ih
    by_cases hl : isLeap (y + n) = true
    · rw [if_pos hl]; omega
    · rw [if_neg hl]; omega

theorem yearStart_lt_of_lt (y z : Int) (h : y < z) : yearStart y < yearStart z := by
  have hk : z = y + ((z - y).toNat : Int) := by omega
  have hm := (yearStart_add y (z - y).toNat).1
  rw [← hk] at hm
  omega

theorem yearStart_le_of_le (y z : Int) (h : y ≤ z) : yearStart y ≤ yearStart z := by
  rcases eq_or_lt_of_le h with h1 | h1
  · rw [h1]
  · exact le_of_lt (yearStart_lt_of_lt y z h1)

theorem addMonths_monthStart (μ k : Int) :
    addMonths (monthStart μ * 86400) k = monthStart (μ + k) * 86400 := by
  unfold addMonths rdOf timeOf
  have hr : monthStart μ * 86400 / 86400 = monthStart μ := by omega
  have ht : monthStart μ * 86400 % 86400 = 0 := by omega
  rw [hr, ht]
  have h := fromRd_toRd (μ / 12) (μ % 12 + 1) 1 (by omega) (by omega) (by omega)
    (by have := mlen_bounds (μ / 12) (μ % 12 + 1); omega)
  unfold monthStart at h ⊢
  rw [h]
  dsimp only
  rw [show 12 * (μ / 12) + (μ % 12 + 1) - 1 + k = μ + k by omega]
  rw [min_eq_left (by have := mlen_bounds ((μ + k) / 12) ((μ + k) % 12 + 1); omega)]
  ring

theorem addYears_yearStart (y k : Int) :
    addYears (yearStart y * 86400) k = yearStart (y + k) * 86400 := by
  unfold addYears rdOf timeOf
  have hr : yearStart y * 86400 / 86400 = yearStart y := by omega
  have ht : yearStart y * 86400 % 86400 = 0 := by omega
  rw [hr, ht]
  have h := fromRd_toRd y 1 1 (by omega) (by omega) (by omega)
    (by have := mlen_bounds y 1; omega)
  unfold yearStart at h ⊢
  rw [h]
  dsimp only
  rw [min_eq_left (by have := mlen_bounds (y + k) 1; omega)]
  ring

/-!  Extraction lemmas for `Valid`. -/

theorem valid_interval (s : Schedule) (h : Valid s) : 1 ≤ s.interval := by
  unfold Valid validb at h
  exact of_decide_eq_true ((Bool.and_eq_true _ _).mp h).1

theorem valid_once (s : Schedule) (h : Valid s) (hk : s.sType = .once) :
    s.interval = 1 ∧ s.lDays = [0] ∧ s.end_ = some s.start := by
  unfold Valid validb at h
  rw [hk] at h
  simp only [Bool.and_eq_true, decide_eq_true_eq] at h
  exact ⟨h.2.1.1, h.2.1.2, h.2.2⟩

theorem valid_daily (s : Schedule) (h : Valid s) (hk : s.sType = .daily) :
    s.lDays = [0] := by
  unfold Valid validb at h
  rw [hk] at h
  simp only [Bool.and_eq_true, decide_eq_true_eq] at h
  exact h.2

theorem valid_weekly (s : Schedule) (h : Valid s) (hk : s.sType = .weekly) :
    s.lDays ≠ [] ∧ ∀ d ∈ s.lDays, 0 ≤ d ∧ d ≤ 6 := by
  unfold Valid validb at h
  rw [hk] at h
  simp only [Bool.and_eq_true] at h
  refine ⟨by simpa using h.2.1.1, fun d hd => ?_⟩
  have h3 := h.2.2
  unfold allInRange at h3
  rw [List.all_eq_true] at h3
  have h4 := h3 d hd
  simp only [Bool.and_eq_true, decide_eq_true_eq] at h4
  exact h4

theorem valid_yearly (s : Schedule) (h : Valid s) (hk : s.sType = .yearly) :
    s.lDays ≠ [] ∧ ∀ d ∈ s.lDays, 1 ≤ d ∧ d ≤ 366 := by
  unfold Valid validb at h
  rw [hk] at h
  simp only [Bool.and_eq_true] at h
  refine ⟨by simpa using h.2.1.1, fun d hd => ?_⟩
  have h3 := h.2.2
  unfold allInRange at h3
  rw [List.all_eq_true] at h3
  have h4 := h3 d hd
  simp only [Bool.and_eq_true, decide_eq_true_eq] at h4
  exact h4

theorem valid_monthly (s : Schedule) (h : Valid s) (hk : s.sType = .monthly) :
    (∀ d ∈ s.lDays, 1 ≤ d ∧ d ≤ 31) ∧
    (∀ k, ∀ d ∈ s.weeks.get k, 0 ≤ d ∧ d ≤ 6) ∧
    (s.lDays ≠ [] ∨ s.weeks.w1 ≠ [] ∨ s.weeks.w2 ≠ [] ∨ s.weeks.w3 ≠ [] ∨
      s.weeks.w4 ≠ [] ∨ s.weeks.w5 ≠ []) := by
  unfold Valid validb at h
  rw [hk] at h
  simp only [Bool.and_eq_true] at h
  have hrange : ∀ (l : List Int) (lo hi : Int), allInRange lo hi l = true →
      ∀ d ∈ l, lo ≤ d ∧ d ≤ hi := by
    intro l lo hi hl d hd
    unfold allInRange at hl
    rw [List.all_eq_true] at hl
    have h4 := hl d hd
    simp only [Bool.and_eq_true, decide_eq_true_eq] at h4
    exact h4
  refine ⟨hrange _ _ _ h.2.1.1.1.1.1.1.2, ?_, ?_⟩
  · intro k d hd
    unfold MWeeks.get at hd
    split_ifs at hd with h1 h2 h3 h4 h5
    · exact hrange _ _ _ h.2.1.1.1.1.1.2 d hd
    · exact hrange _ _ _ h.2.1.1.1.1.2 d hd
    · exact hrange _ _ _ h.2.1.1.1.2 d hd
    · exact hrange _ _ _ h.2.1.1.2 d hd
    · exact hrange _ _ _ h.2.1.2 d hd
    · simp at hd
  · have h6 := h.2.2
    simp only [Bool.or_eq_true, Bool.not_eq_true', Bool.eq_false_iff, ne_eq,
      List.isEmpty_iff] at h6
    tauto

theorem fromRd_monthStart (μ : Int) : fromRd (monthStart μ) = (μ / 12, μ % 12 + 1, 1) := by
  unfold monthStart
  exact fromRd_toRd _ _ _ (by omega) (by omega) (by omega)
    (by have := mlen_bounds (μ / 12) (μ % 12 + 1); omega)

theorem fromRd_yearStart (y : Int) : fromRd (yearStart y) = (y, 1, 1) := by
  unfold yearStart
  exact fromRd_toRd _ _ _ (by omega) (by omega) (by omega)
    (by have := mlen_bounds y 1; omega)

/-!  Per-kind facts feeding the strict-progress analysis of `next_step`:
interval starts are midnights, `get_interval` floors `start_of_period`,
`next_interval` lies strictly beyond `ts`, and `ts` decomposes over its
period start, day offset and time of day. -/

theorem step_facts_once (s : Schedule) (ts : Int) (hk : s.sType = .once)
    (hn : 1 ≤ s.interval) :
    s.get_interval ts % 86400 = 0 ∧ s.next_interval ts % 86400 = 0 ∧
    s.get_interval ts ≤ s.start_of_period ts ∧ ts < s.next_interval ts ∧
    ts = s.start_of_period ts + 86400 * s.offset (s.period_day ts) + timeOf ts ∧
    0 ≤ s.offset (s.period_day ts) := by
  unfold Schedule.next_interval
  unfold Schedule.get_interval Schedule.start_of_period Schedule.offset Schedule.period_day
  rw [hk]
  dsimp only
  unfold truncDay addDays rdOf timeOf
  refine ⟨by omega, by omega, by omega, by omega, by omega, by omega⟩

theorem step_facts_daily (s : Schedule) (ts : Int) (hk : s.sType = .daily)
    (hn : 1 ≤ s.interval) :
    s.get_interval ts % 86400 = 0 ∧ s.next_interval ts % 86400 = 0 ∧
    s.get_interval ts ≤ s.start_of_period ts ∧ ts < s.next_interval ts ∧
    ts = s.start_of_period ts + 86400 * s.offset (s.period_day ts) + timeOf ts ∧
    0 ≤ s.offset (s.period_day ts) := by
  unfold Schedule.next_interval
  unfold Schedule.get_interval Schedule.start_of_period Schedule.offset Schedule.period_day
  rw [hk]
  dsimp only
  unfold truncDay addDays rdOf timeOf
  set r := ((ts / 86400 * 86400 - s.start / 86400 * 86400) / 86400) % s.interval with hr
  have hr0 : 0 ≤ r := Int.emod_nonneg _ (by omega)
  have hr1 : r < s.interval := Int.emod_lt_of_pos _ (by omega)
  refine ⟨by omega, by omega, by omega, by omega, by omega, by omega⟩

theorem step_facts_weekly (s : Schedule) (ts : Int) (hk : s.sType = .weekly)
    (hn : 1 ≤ s.interval) :
    s.get_interval ts % 86400 = 0 ∧ s.next_interval ts % 86400 = 0 ∧
    s.get_interval ts ≤ s.start_of_period ts ∧ ts < s.next_interval ts ∧
    ts = s.start_of_period ts + 86400 * s.offset (s.period_day ts) + timeOf ts ∧
    0 ≤ s.offset (s.period_day ts) := by
  unfold Schedule.next_interval
  unfold Schedule.get_interval Schedule.start_of_period Schedule.offset Schedule.period_day
  rw [hk]
  dsimp only
  unfold truncWeek addDays rdOf timeOf weekdayOf
  set r := (((ts / 86400 - (ts / 86400 - 1) % 7) * 86400 -
      (s.start / 86400 - (s.start / 86400 - 1) % 7) * 86400) / 86400 / 7) % s.interval with hr
  have hr0 : 0 ≤ r := Int.emod_nonneg _ (by omega)
  have hr1 : r < s.interval := Int.emod_lt_of_pos _ (by omega)
  refine ⟨by omega, by omega, by omega, by omega, by omega, by omega⟩

theorem step_facts_monthly (s : Schedule) (ts : Int) (hk : s.sType = .monthly)
    (hn : 1 ≤ s.interval) :
    s.get_interval ts % 86400 = 0 ∧ s.next_interval ts % 86400 = 0 ∧
    s.get_interval ts ≤ s.start_of_period ts ∧ ts < s.next_interval ts ∧
    ts = s.start_of_period ts + 86400 * s.offset (s.period_day ts) + timeOf ts ∧
    0 ≤ s.offset (s.period_day ts) := by
  unfold Schedule.next_interval
  unfold Schedule.get_interval Schedule.start_of_period Schedule.offset Schedule.period_day
  rw [hk]
  dsimp only
  unfold truncMonth dayOfMonth
  set μs := monthIdx (rdOf s.start) with hμs
  set μt := monthIdx (rdOf ts) with hμt
  have hrs : rdOf (monthStart μs * 86400) = monthStart μs := by unfold rdOf; omega
  have hrt : rdOf (monthStart μt * 86400) = monthStart μt := by unfold rdOf; omega
  rw [hrs, hrt, fromRd_monthStart μs, fromRd_monthStart μt]
  dsimp only
  rw [show (μt / 12 - μs / 12) * 12 + (μt % 12 + 1 - (μs % 12 + 1)) = μt - μs by omega]
  set r := (μt - μs) % s.interval with hr
  have hr0 : 0 ≤ r := Int.emod_nonneg _ (by omega)
  have hr1 : r < s.interval := Int.emod_lt_of_pos _ (by omega)
  rw [addMonths_monthStart μs (μt - μs - r)]
  rw [show μs + (μt - μs - r) = μt - r by ring]
  rw [addMonths_monthStart (μt - r) s.interval]
  have hle := monthStart_le_of_le (μt - r) μt (by omega)
  have hlt := monthStart_le_of_le (μt + 1) (μt - r + s.interval) (by omega)
  have hmb := rd_month_bounds (rdOf ts)
  rw [← hμt] at hmb
  have hdc := rd_decomp (rdOf ts)
  rw [← hμt] at hdc
  have ht : ts = rdOf ts * 86400 + timeOf ts ∧ 0 ≤ timeOf ts ∧ timeOf ts < 86400 := by
    unfold rdOf timeOf; omega
  have hfs := (fromRd_spec (rdOf ts)).2.2.1
  refine ⟨by omega, by omega, by omega, by omega, by omega, by omega⟩

theorem step_facts_yearly (s : Schedule) (ts : Int) (hk : s.sType = .yearly)
    (hn : 1 ≤ s.interval) :
    s.get_interval ts % 86400 = 0 ∧ s.next_interval ts % 86400 = 0 ∧
    s.get_interval ts ≤ s.start_of_period ts ∧ ts < s.next_interval ts ∧
    ts = s.start_of_period ts + 86400 * s.offset (s.period_day ts) + timeOf ts ∧
    0 ≤ s.offset (s.period_day ts) := by
  unfold Schedule.next_interval
  unfold Schedule.get_interval Schedule.start_of_period Schedule.offset Schedule.period_day
  rw [hk]
  dsimp only
  unfold truncYear dayOfYear
  set ys := (fromRd (rdOf s.start)).1 with hys
  set yt := (fromRd (rdOf ts)).1 with hyt
  have hrs : rdOf (yearStart ys * 86400) = yearStart ys := by unfold rdOf; omega
  have hrt : rdOf (yearStart yt * 86400) = yearStart yt := by unfold rdOf; omega
  rw [hrs, hrt, fromRd_yearStart ys, fromRd_yearStart yt]
  dsimp only
  set r := (yt - ys) % s.interval with hr
  have hr0 : 0 ≤ r := Int.emod_nonneg _ (by omega)
  have hr1 : r < s.interval := Int.emod_lt_of_pos _ (by omega)
  rw [addYears_yearStart ys (yt - ys - r)]
  rw [show ys + (yt - ys - r) = yt - r by ring]
  rw [addYears_yearStart (yt - r) s.interval]
  have hle := yearStart_le_of_le (yt - r) yt (by omega)
  have hlt := yearStart_le_of_le (yt + 1) (yt - r + s.interval) (by omega)
  have hmb := rd_year_bounds (rdOf ts)
  rw [← hyt] at hmb
  have ht : ts = rdOf ts * 86400 + timeOf ts ∧ 0 ≤ timeOf ts ∧ timeOf ts < 86400 := by
    unfold rdOf timeOf; omega
  refine ⟨by omega, by omega, by omega, by omega, by omega, by omega⟩

theorem step_facts (s : Schedule) (ts : Int) (h : Valid s) :
    s.get_interval ts % 86400 = 0 ∧ s.next_interval ts % 86400 = 0 ∧
    s.get_interval ts ≤ s.start_of_period ts ∧ ts < s.next_interval ts ∧
    ts = s.start_of_period ts + 86400 * s.offset (s.period_day ts) + timeOf ts ∧
    0 ≤ s.offset (s.period_day ts) := by
  have hn := valid_interval s h
  cases hk : s.sType
  · exact step_facts_once s ts hk hn
  · exact step_facts_daily s ts hk hn
  · exact step_facts_weekly s ts hk hn
  · exact step_facts_monthly s ts hk hn
  · exact step_facts_yearly s ts hk hn

/-!  Day-resolver lemmas. -/

theorem insD_mem (a : Int) (l : List Int) (x : Int) : x ∈ insD a l ↔ x = a ∨ x ∈ l := by
  induction l with
  | nil => simp [insD]
  | cons b t ih =>
    unfold insD
    split_ifs with h1 h2
    · simp [List.mem_cons]
    · subst h2
      simp [List.mem_cons]
    · simp only [List.mem_cons, ih]
      tauto

theorem insD_self (a : Int) (l : List Int) : a ∈ insD a l := by
  rw [insD_mem]; left; rfl

theorem insD_ne_nil (a : Int) (l : List Int) : insD a l ≠ [] := by
  cases l with
  | nil => simp [insD]
  | cons b t =>
    unfold insD
    split_ifs <;> simp

theorem mem_ite_insD (c : Prop) [Decidable c] (a x : Int) (l : List Int) (h : x ∈ l) :
    x ∈ (if c then insD a l else l) := by
  split_ifs
  · rw [insD_mem]; right; exact h
  · exact h

theorem getLastD_mem (l : List Int) (h : l ≠ []) (d : Int) : l.getLastD d ∈ l := by
  cases l with
  | nil => exact absurd rfl h
  | cons a t =>
    rw [List.getLastD_cons]
    exact List.getLastD_mem_cons t a

theorem headD_mem (l : List Int) (h : l ≠ []) (d : Int) : l.headD d ∈ l := by
  cases l with
  | nil => exact absurd rfl h
  | cons a t => simp [List.headD]

theorem daysAcc_sub (w : MWeeks) (sdow slw : Int) :
    ∀ (doms : List Int) (dow week : Int) (acc : List Int) (x : Int),
      x ∈ acc → x ∈ Schedule.daysAcc w sdow slw doms dow week acc := by
  intro doms
  induction doms with
  | nil =>
    intro dow week acc x hx
    simpa [Schedule.daysAcc] using hx
  | cons dom rest ih =>
    intro dow week acc x hx
    simp only [Schedule.daysAcc]
    apply ih
    apply mem_ite_insD
    apply mem_ite_insD
    exact hx

theorem daysAcc_all (w : MWeeks) (sdow slw : Int) (P : Int → Prop) :
    ∀ (doms : List Int) (dow week : Int) (acc : List Int),
      (∀ x ∈ acc, P x) → (∀ d ∈ doms, P d) →
      ∀ x ∈ Schedule.daysAcc w sdow slw doms dow week acc, P x := by
  intro doms
  induction doms with
  | nil =>
    intro dow week acc hacc _ x hx
    simp only [Schedule.daysAcc] at hx
    exact hacc x hx
  | cons dom rest ih =>
    intro dow week acc hacc hdoms x hx
    simp only [Schedule.daysAcc] at hx
    refine ih _ _ _ ?_ (fun d hd => hdoms d (List.mem_cons_of_mem _ hd)) x hx
    intro z hz
    have hz2 : z = dom ∨ z ∈ acc := by
      split_ifs at hz <;> (try simp only [insD_mem] at hz) <;> tauto
    rcases hz2 with rfl | hz2
    · exact hdoms z (List.mem_cons_self _ _)
    · exact hacc z hz2

theorem daysAcc_mem_aux (w : MWeeks) (sdow slw : Int) (h0 : 0 ≤ sdow) (h6 : sdow ≤ 6) :
    ∀ (k : Nat) (j : Int), 1 ≤ j → ∀ (acc : List Int) (x : Int),
      (x ∈ Schedule.daysAcc w sdow slw ((List.range k).map (fun i : Nat => j + (i : Int)))
          ((sdow + (j - 1)) % 7) ((j + 5) / 7) acc ↔
        x ∈ acc ∨ ∃ i : Nat, i < k ∧ x = j + (i : Int) ∧
          ((¬((x - 1) / 7 + 1 = 5) ∧ (sdow + (x - 1)) % 7 ∈ w.get ((x - 1) / 7 + 1)) ∨
           (slw ≤ x ∧ (sdow + (x - 1)) % 7 ∈ w.get 5))) := by
  intro k
  induction k with
  | zero =>
    intro j hj acc x
    simp [Schedule.daysAcc]
  | succ k ih =>
    intro j hj acc x
    rw [List.range_succ_eq_map, List.map_cons, List.map_map]
    rw [List.map_congr_left
      (show ∀ a ∈ List.range k, ((fun i : Nat => j + (i : Int)) ∘ Nat.succ) a
          = (fun i : Nat => (j + 1) + (i : Int)) a from by
        intro a ha; simp only [Function.comp]; push_cast; ring)]
    rw [show j + ((0 : Nat) : Int) = j by simp]
    simp only [Schedule.daysAcc]
    have hweek : (if (sdow + (j - 1)) % 7 = sdow then (j + 5) / 7 + 1 else (j + 5) / 7)
        = (j + 1 + 5) / 7 := by
      split_ifs with h <;> omega
    have hdow : (if (sdow + (j - 1)) % 7 = 6 then 0 else (sdow + (j - 1)) % 7 + 1)
        = (sdow + (j + 1 - 1)) % 7 := by
      split_ifs with h <;> omega
    rw [hweek, hdow]
    rw [ih (j + 1) (by omega)]
    have hwk : (j + 1 + 5) / 7 = (j - 1) / 7 + 1 := by omega
    rw [hwk]
    constructor
    · rintro (hx | ⟨i, hik, hxi, hC⟩)
      · -- x came from the accumulator updates at dom = j
        split_ifs at hx with hc1 hc2 hc2 <;> (try simp only [insD_mem] at hx)
        · rcases hx with rfl | (rfl | hx)
          · exact Or.inr ⟨0, by omega, by simp, Or.inr ⟨hc1.1, hc1.2⟩⟩
          · exact Or.inr ⟨0, by omega, by simp, Or.inl ⟨hc2.1, hc2.2⟩⟩
          · exact Or.inl hx
        · rcases hx with rfl | hx
          · exact Or.inr ⟨0, by omega, by simp, Or.inr ⟨hc1.1, hc1.2⟩⟩
          · exact Or.inl hx
        · rcases hx with rfl | hx
          · exact Or.inr ⟨0, by omega, by simp, Or.inl ⟨hc2.1, hc2.2⟩⟩
          · exact Or.inl hx
        · exact Or.inl hx
      · exact Or.inr ⟨i + 1, by omega, by push_cast; omega, hC⟩
    · rintro (hx | ⟨i, hik, hxi, hC⟩)
      · left
        apply mem_ite_insD
        apply mem_ite_insD
        exact hx
      · cases i with
        | zero =>
          left
          have hxj : x = j := by simpa using hxi
          subst hxj
          rcases hC with ⟨hC1, hC2⟩ | ⟨hC1, hC2⟩
          · apply mem_ite_insD
            rw [if_pos ⟨hC1, hC2⟩]
            exact insD_self _ _
          · rw [if_pos ⟨hC1, hC2⟩]
            exact insD_self _ _
        | succ i =>
          right
          refine ⟨i, by omega, by push_cast at hxi ⊢; omega, hC⟩

theorem foldr_insD_mem (l : List Int) (x : Int) : x ∈ l.foldr insD [] ↔ x ∈ l := by
  induction l with
  | nil => simp
  | cons a t ih => simp [List.foldr_cons, insD_mem, ih]

theorem monthrange_fst_bounds (ts : Int) :
    0 ≤ (monthrange ts).1 ∧ (monthrange ts).1 ≤ 6 := by
  unfold monthrange weekdayOf
  dsimp only
  omega

theorem monthrange_snd_bounds (ts : Int) :
    28 ≤ (monthrange ts).2 ∧ (monthrange ts).2 ≤ 31 := by
  unfold monthrange
  dsimp only
  exact mlen_bounds _ _

theorem days_mem_monthly (s : Schedule) (ts : Int) (hk : s.sType = .monthly) (x : Int) :
    x ∈ s.days ts ↔ x ∈ s.lDays ∨
      (1 ≤ x ∧ x ≤ (monthrange ts).2 ∧
        ((¬((x - 1) / 7 + 1 = 5) ∧
            ((monthrange ts).1 + (x - 1)) % 7 ∈ s.weeks.get ((x - 1) / 7 + 1)) ∨
         ((monthrange ts).2 - 6 ≤ x ∧
            ((monthrange ts).1 + (x - 1)) % 7 ∈ s.weeks.get 5))) := by
  have hb1 := monthrange_fst_bounds ts
  have hb2 := monthrange_snd_bounds ts
  unfold Schedule.days
  rw [hk]
  dsimp only
  have ha := daysAcc_mem_aux s.weeks (monthrange ts).1 ((monthrange ts).2 - 6)
    hb1.1 hb1.2 (monthrange ts).2.toNat 1 (by omega) (s.lDays.foldr insD []) x
  rw [show ((monthrange ts).1 + (1 - 1)) % 7 = (monthrange ts).1 by omega] at ha
  rw [show ((1 : Int) + 5) / 7 = 0 by norm_num] at ha
  rw [List.map_congr_left
    (show ∀ a ∈ List.range (monthrange ts).2.toNat,
        (fun i : Nat => 1 + (i : Int)) a = (fun k : Nat => (k : Int) + 1) a from by
      intro a ha2; dsimp only; ring)] at ha
  rw [ha, foldr_insD_mem]
  constructor
  · rintro (hx | ⟨i, hik, hxi, hC⟩)
    · exact Or.inl hx
    · refine Or.inr ⟨by omega, by omega, hC⟩
  · rintro (hx | ⟨hx1, hx2, hC⟩)
    · exact Or.inl hx
    · refine Or.inr ⟨(x - 1).toNat, by omega, by omega, hC⟩

theorem week_rule_witness (s : Schedule) (ts : Int) (hk : s.sType = .monthly)
    (i : Int) (hi1 : 1 ≤ i) (hi4 : i ≤ 4) (v : Int) (hv0 : 0 ≤ v) (hv6 : v ≤ 6)
    (hmem : v ∈ s.weeks.get i) : s.days ts ≠ [] := by
  have hb1 := monthrange_fst_bounds ts
  have hb2 := monthrange_snd_bounds ts
  refine List.ne_nil_of_mem ((days_mem_monthly s ts hk
    (7 * (i - 1) + ((v - (monthrange ts).1) % 7 + 1))).mpr (Or.inr ⟨by omega, by omega,
      Or.inl ⟨by omega, ?_⟩⟩))
  rw [show ((monthrange ts).1 + (7 * (i - 1) + ((v - (monthrange ts).1) % 7 + 1) - 1)) % 7
      = v by omega,
    show (7 * (i - 1) + ((v - (monthrange ts).1) % 7 + 1) - 1) / 7 + 1 = i by omega]
  exact hmem

theorem week5_rule_witness (s : Schedule) (ts : Int) (hk : s.sType = .monthly)
    (v : Int) (hv0 : 0 ≤ v) (hv6 : v ≤ 6) (hmem : v ∈ s.weeks.get 5) :
    s.days ts ≠ [] := by
  have hb1 := monthrange_fst_bounds ts
  have hb2 := monthrange_snd_bounds ts
  refine List.ne_nil_of_mem ((days_mem_monthly s ts hk
    ((monthrange ts).2 - (((monthrange ts).1 + (monthrange ts).2 - 1 - v) % 7))).mpr
    (Or.inr ⟨by omega, by omega, Or.inr ⟨by omega, ?_⟩⟩))
  rw [show ((monthrange ts).1 + ((monthrange ts).2 -
      (((monthrange ts).1 + (monthrange ts).2 - 1 - v) % 7) - 1)) % 7 = v by omega]
  exact hmem

theorem days_facts (s : Schedule) (ts : Int) (h : Valid s) :
    s.days ts ≠ [] ∧ ∀ d ∈ s.days ts, 0 ≤ s.offset d := by
  cases hk : s.sType
  · have hv := valid_once s h hk
    unfold Schedule.days Schedule.offset
    rw [hk, hv.2.1]
    dsimp only
    exact ⟨by simp, by intro d hd; simp at hd; omega⟩
  · have hv := valid_daily s h hk
    unfold Schedule.days Schedule.offset
    rw [hk, hv]
    dsimp only
    exact ⟨by simp, by intro d hd; simp at hd; omega⟩
  · have hv := valid_weekly s h hk
    unfold Schedule.days Schedule.offset
    rw [hk]
    refine ⟨hv.1, fun d hd => ?_⟩
    have := hv.2 d hd
    dsimp only
    omega
  · have hv := valid_monthly s h hk
    constructor
    · rcases hv.2.2 with hne | hne | hne | hne | hne | hne
      · obtain ⟨y, hy⟩ := List.exists_mem_of_ne_nil _ hne
        exact List.ne_nil_of_mem ((days_mem_monthly s ts hk y).mpr (Or.inl hy))
      · obtain ⟨v, hv5⟩ := List.exists_mem_of_ne_nil _ hne
        have hm : v ∈ s.weeks.get 1 := by unfold MWeeks.get; norm_num; exact hv5
        have hvr := hv.2.1 1 v hm
        exact week_rule_witness s ts hk 1 (by norm_num) (by norm_num) v hvr.1 hvr.2 hm
      · obtain ⟨v, hv5⟩ := List.exists_mem_of_ne_nil _ hne
        have hm : v ∈ s.weeks.get 2 := by unfold MWeeks.get; norm_num; exact hv5
        have hvr := hv.2.1 2 v hm
        exact week_rule_witness s ts hk 2 (by norm_num) (by norm_num) v hvr.1 hvr.2 hm
      · obtain ⟨v, hv5⟩ := List.exists_mem_of_ne_nil _ hne
        have hm : v ∈ s.weeks.get 3 := by unfold MWeeks.get; norm_num; exact hv5
        have hvr := hv.2.1 3 v hm
        exact week_rule_witness s ts hk 3 (by norm_num) (by norm_num) v hvr.1 hvr.2 hm
      · obtain ⟨v, hv5⟩ := List.exists_mem_of_ne_nil _ hne
        have hm : v ∈ s.weeks.get 4 := by unfold MWeeks.get; norm_num; exact hv5
        have hvr := hv.2.1 4 v hm
        exact week_rule_witness s ts hk 4 (by norm_num) (by norm_num) v hvr.1 hvr.2 hm
      · obtain ⟨v, hv5⟩ := List.exists_mem_of_ne_nil _ hne
        have hm : v ∈ s.weeks.get 5 := by unfold MWeeks.get; norm_num; exact hv5
        have hvr := hv.2.1 5 v hm
        exact week5_rule_witness s ts hk v hvr.1 hvr.2 hm
    · intro d hd
      rw [days_mem_monthly s ts hk d] at hd
      unfold Schedule.offset
      rw [hk]
      dsimp only
      rcases hd with hd | ⟨h1, h2, h3⟩
      · have := hv.1 d hd
        omega
      · omega
  · have hv := valid_yearly s h hk
    unfold Schedule.days Schedule.offset
    rw [hk]
    dsimp only
    refine ⟨hv.1, fun d hd => ?_⟩
    have := hv.2 d hd
    omega

/-!  Strict progress of `next_step`. -/

theorem combine_addDays (X off t : Int) (hX : X % 86400 = 0) :
    combine (addDays X off) t = X + 86400 * off + t := by
  unfold combine addDays truncDay rdOf
  omega

theorem offset_affine (s : Schedule) (a b : Int) : s.offset a - s.offset b = a - b := by
  unfold Schedule.offset
  cases hk : s.sType <;> dsimp only <;> ring

theorem nextWalkDay_facts (ds : List Int) (td : Int) (hne : ds ≠ [])
    (hle : td ≤ ds.getLastD 0) :
    td ≤ Schedule.nextWalkDay ds td ∧ Schedule.nextWalkDay ds td ∈ ds := by
  unfold Schedule.nextWalkDay
  cases hf : ds.find? (fun d => decide (td ≤ d)) with
  | some d =>
    have h1 := List.find?_some hf
    have h2 := List.mem_of_find?_eq_some hf
    simp only [decide_eq_true_eq] at h1
    exact ⟨h1, h2⟩
  | none =>
    rw [List.find?_eq_none] at hf
    have h3 := hf _ (getLastD_mem ds hne 0)
    simp only [decide_eq_true_eq] at h3
    exact absurd hle h3

theorem next_candidate_gt (s : Schedule) (ts : Int) (h : Valid s) :
    ts < s.next_candidate ts := by
  obtain ⟨hg0, hn0, hgle, hnext, hdec, hpd0⟩ := step_facts s ts h
  obtain ⟨hne, hoff⟩ := days_facts s ts h
  have hts : 0 ≤ timeOf ts ∧ timeOf ts < 86400 := by unfold timeOf; omega
  have hst : 0 ≤ timeOf s.start ∧ timeOf s.start < 86400 := by unfold timeOf; omega
  have hofh : 0 ≤ s.offset ((s.days ts).headD 0) := hoff _ (headD_mem _ hne 0)
  unfold Schedule.next_candidate
  dsimp only
  by_cases hbump : timeOf s.start ≤ timeOf ts
  · rw [if_pos hbump]
    split_ifs with h1 h2 h3
    · rw [combine_addDays _ _ _ hn0]
      omega
    · rw [combine_addDays _ _ _ hn0]
      omega
    · rw [combine_addDays _ _ _ hg0]
      have heq : s.get_interval ts = s.start_of_period ts := le_antisymm hgle (not_lt.mp h1)
      have haff := offset_affine s ((s.days ts).headD 0) (s.period_day ts)
      omega
    · rw [combine_addDays _ _ _ hg0]
      have heq : s.get_interval ts = s.start_of_period ts := le_antisymm hgle (not_lt.mp h1)
      obtain ⟨hw1, hw2⟩ := nextWalkDay_facts (s.days ts) (s.period_day ts + 1) hne
        (not_lt.mp h2)
      have haff := offset_affine s (Schedule.nextWalkDay (s.days ts) (s.period_day ts + 1))
        (s.period_day ts)
      have hwo := hoff _ hw2
      omega
  · rw [if_neg hbump]
    split_ifs with h1 h2 h3
    · rw [combine_addDays _ _ _ hn0]
      omega
    · rw [combine_addDays _ _ _ hn0]
      omega
    · rw [combine_addDays _ _ _ hg0]
      have heq : s.get_interval ts = s.start_of_period ts := le_antisymm hgle (not_lt.mp h1)
      have haff := offset_affine s ((s.days ts).headD 0) (s.period_day ts)
      omega
    · rw [combine_addDays _ _ _ hg0]
      have heq : s.get_interval ts = s.start_of_period ts := le_antisymm hgle (not_lt.mp h1)
      obtain ⟨hw1, hw2⟩ := nextWalkDay_facts (s.days ts) (s.period_day ts) hne
        (not_lt.mp h2)
      have haff := offset_affine s (Schedule.nextWalkDay (s.days ts) (s.period_day ts))
        (s.period_day ts)
      have hwo := hoff _ hw2
      omega

/-- Strict progress: whatever fuel it is given, a successful `next_step`
search returns an instant strictly after the reference instant. -/
theorem next_step_go_gt (s : Schedule) (h : Valid s) :
    ∀ (fuel : Nat) (ts n : Int), Schedule.next_step_go s fuel ts = some n → ts < n := by
  intro fuel
  induction fuel with
  | zero =>
    intro ts n he
    simp [Schedule.next_step_go] at he
  | succ fuel ih =>
    intro ts n he
    have hcand := next_candidate_gt s ts h
    simp only [Schedule.next_step_go] at he
    by_cases h1 : Schedule.endExceeded s.end_ (s.next_candidate ts) = true
    · rw [if_pos h1] at he
      exact absurd he (by simp)
    · rw [if_neg h1] at he
      by_cases h2 : s.next_candidate ts < s.start
      · rw [if_pos h2] at he
        have h3 := ih _ _ he
        omega
      · rw [if_neg h2] at he
        have h4 : s.next_candidate ts = n := Option.some.inj he
        omega

/-- Strict progress for the wrapper. -/
theorem next_step_gt (s : Schedule) (h : Valid s) (ts n : Int)
    (he : s.next_step ts = some n) : ts < n :=
  next_step_go_gt s h _ ts n he

theorem steps_go_chain (s : Schedule) (h : Valid s) :
    ∀ (fuel : Nat) (cursor before : Int) (l : List Int),
      Schedule.steps_go s before fuel cursor = some l →
      l.Chain' (· < ·) ∧ ∀ e ∈ l, cursor < e ∧ e ≤ before := by
  intro fuel
  induction fuel with
  | zero =>
    intro cursor before l he
    simp [Schedule.steps_go] at he
  | succ fuel ih =>
    intro cursor before l he
    simp only [Schedule.steps_go] at he
    cases hn : s.next_step cursor with
    | none =>
      rw [hn] at he
      simp only [Option.some.injEq] at he
      subst he
      exact ⟨by simp, by simp⟩
    | some st =>
      rw [hn] at he
      dsimp only at he
      have hst := next_step_gt s h cursor st hn
      by_cases hle : st ≤ before
      · rw [if_pos hle] at he
        rcases Option.map_eq_some'.mp he with ⟨l2, hl2, rfl⟩
        obtain ⟨hc, hb⟩ := ih st before l2 hl2
        constructor
        · rw [List.chain'_cons']
          exact ⟨fun y hy => (hb y (List.mem_of_mem_head? hy)).1, hc⟩
        · intro e hemem
          rcases List.mem_cons.mp hemem with rfl | hemem
          · exact ⟨hst, hle⟩
          · obtain ⟨h1, h2⟩ := hb e hemem
            exact ⟨by omega, h2⟩
      · rw [if_neg hle] at he
        simp only [Option.some.injEq] at he
        subst he
        exact ⟨by simp, by simp⟩

/-- C4.  For every valid schedule and bounds, the sequence produced by
`steps(after, before)` is strictly increasing, and every element `e`
satisfies `after < e` and `e ≤ before`. -/
theorem C4_steps_strictly_increasing_and_bounded :
    ∀ (s : Schedule), Valid s → ∀ (after before : Int) (fuel : Nat) (l : List Int),
      s.steps (some after) (some before) fuel = some l →
      l.Chain' (· < ·) ∧ ∀ e ∈ l, after < e ∧ e ≤ before := by
  intro s hv after before fuel l he
  unfold Schedule.steps at he
  simp only [Option.getD_some] at he
  exact steps_go_chain s hv fuel after before l he

/-- Witness for C4 at the concrete daily schedule `dSteps` with explicit
bounds and fuel. -/
theorem C4_witness :
    Valid dSteps ∧
    dSteps.steps (some (toRd 2012 1 4 * 86400 + 43199))
        (some (toRd 2012 1 16 * 86400 + 43200)) 20 =
      some [toRd 2012 1 4 * 86400 + 43200, toRd 2012 1 7 * 86400 + 43200,
        toRd 2012 1 10 * 86400 + 43200, toRd 2012 1 13 * 86400 + 43200,
        toRd 2012 1 16 * 86400 + 43200] ∧
    ([toRd 2012 1 4 * 86400 + 43200, toRd 2012 1 7 * 86400 + 43200,
        toRd 2012 1 10 * 86400 + 43200, toRd 2012 1 13 * 86400 + 43200,
        toRd 2012 1 16 * 86400 + 43200].Chain' (· < ·) ∧
      ∀ e ∈ [toRd 2012 1 4 * 86400 + 43200, toRd 2012 1 7 * 86400 + 43200,
        toRd 2012 1 10 * 86400 + 43200, toRd 2012 1 13 * 86400 + 43200,
        toRd 2012 1 16 * 86400 + 43200],
          toRd 2012 1 4 * 86400 + 43199 < e ∧ e ≤ toRd 2012 1 16 * 86400 + 43200) :=
  ⟨by unfold Valid; decide, by decide,
    C4_steps_strictly_increasing_and_bounded dSteps (by unfold Valid; decide)
      (toRd 2012 1 4 * 86400 + 43199) (toRd 2012 1 16 * 86400 + 43200) 20 _ (by decide)⟩

/-- With fuel exceeding the width of the window, the `steps` loop
finishes: strict progress of `next_step` shrinks `before - cursor` at
every yield. -/
theorem steps_go_terminates (s : Schedule) (h : Valid s) (before : Int) :
    ∀ (fuel : Nat) (cursor : Int), (before - cursor).toNat < fuel →
      ∃ l, Schedule.steps_go s before fuel cursor = some l := by
  intro fuel
  induction fuel with
  | zero => intro cursor hlt; exact absurd hlt (Nat.not_lt_zero _)
  | succ fuel ih =>
    intro cursor hlt
    simp only [Schedule.steps_go]
    cases hn : s.next_step cursor with
    | none => exact ⟨[], rfl⟩
    | some st =>
      dsimp only
      have hst := next_step_gt s h cursor st hn
      by_cases hle : st ≤ before
      · rw [if_pos hle]
        obtain ⟨l, hl⟩ := ih st (by omega)
        exact ⟨st :: l, by rw [hl]; rfl⟩
      · rw [if_neg hle]
        exact ⟨[], rfl⟩

/-- C5 (amended).  `steps` defaults its lower bound to `start - 1` second
and its upper bound to `end + 1` second when `end` is set — not to `end`
itself as the spec states — else to `start + 3` months; and on every
valid schedule the enumeration finishes whenever the fuel exceeds the
width of the requested window. -/
theorem C5_steps_defaults_and_terminate :
    ∀ (s : Schedule), Valid s →
      Schedule.steps_after_default s = s.start - 1 ∧
      (∀ e, s.end_ = some e → Schedule.steps_before_default s = e + 1) ∧
      (s.end_ = none → Schedule.steps_before_default s = addMonths s.start 3) ∧
      ∀ (after before : Int), ∃ l,
        s.steps (some after) (some before) ((before - after).toNat + 1) = some l := by
  intro s hv
  refine ⟨rfl, ?_, ?_, ?_⟩
  · intro e he
    unfold Schedule.steps_before_default
    rw [he]
  · intro he
    unfold Schedule.steps_before_default
    rw [he]
  · intro after before
    unfold Schedule.steps
    simp only [Option.getD_some]
    exact steps_go_terminates s hv before ((before - after).toNat + 1) after (by omega)

/-- C5 counterexample: for `dSteps`, whose `end` is 2012-01-16 12:00:00,
the default upper bound of `steps` is `end + 1` second, not `end`. -/
theorem C5_default_before_is_not_end :
    dSteps.end_ = some (toRd 2012 1 16 * 86400 + 43200) ∧
    Schedule.steps_before_default dSteps ≠ toRd 2012 1 16 * 86400 + 43200 ∧
    Schedule.steps_before_default dSteps = toRd 2012 1 16 * 86400 + 43200 + 1 := by
  decide

/-- Witness for the amended C5 at the concrete daily schedule `dSteps`. -/
theorem C5_witness :
    Valid dSteps ∧
    (Schedule.steps_after_default dSteps = dSteps.start - 1 ∧
      (∀ e, dSteps.end_ = some e → Schedule.steps_before_default dSteps = e + 1) ∧
      (dSteps.end_ = none →
        Schedule.steps_before_default dSteps = addMonths dSteps.start 3) ∧
      ∀ (after before : Int), ∃ l,
        dSteps.steps (some after) (some before) ((before - after).toNat + 1) = some l) :=
  ⟨by unfold Valid; decide, C5_steps_defaults_and_terminate dSteps (by unfold Valid; decide)⟩

/-- Subtracting a number's remainder modulo `n` leaves a multiple of
`n`. -/
theorem sub_emod_self (a n : Int) : (a - a % n) % n = 0 := by
  rw [Int.sub_emod, Int.emod_emod_of_dvd a dvd_rfl]
  simp

/-- C6.  For every valid recurring schedule and every instant `ts` (also
before `start`), `get_interval ts` sits on the schedule's period grid:
the period count from `start_of_period start` to it is divisible by
`interval`, and it floors `ts`: `get_interval ts ≤ start_of_period ts <
next_interval ts` (the latter being `get_interval ts` advanced by
`interval` periods). -/
theorem C6_get_interval_on_grid :
    ∀ (s : Schedule) (ts : Int), Valid s → s.sType ≠ SType.once →
      periodsBetween s (s.start_of_period s.start) (s.get_interval ts) % s.interval = 0 ∧
      s.get_interval ts ≤ s.start_of_period ts ∧
      s.start_of_period ts < s.next_interval ts := by
  intro s ts hv hk0
  have hn := valid_interval s hv
  obtain ⟨hg0, hn0, hgle, hnext, hdec, hpd0⟩ := step_facts s ts hv
  have ht0 : 0 ≤ timeOf ts := by unfold timeOf; omega
  refine ⟨?_, hgle, by omega⟩
  cases hk : s.sType
  case once => exact absurd hk hk0
  case daily =>
    unfold periodsBetween Schedule.get_interval Schedule.start_of_period
    rw [hk]
    dsimp only
    unfold truncDay addDays rdOf
    set d := (ts / 86400 * 86400 - s.start / 86400 * 86400) / 86400 with hd
    set z := d % s.interval with hz
    have he : (s.start / 86400 * 86400 + 86400 * (d - z) - s.start / 86400 * 86400) /
        86400 = d - z := by omega
    rw [he, hz]
    exact sub_emod_self d s.interval
  case weekly =>
    unfold periodsBetween Schedule.get_interval Schedule.start_of_period
    rw [hk]
    dsimp only
    unfold truncWeek addDays rdOf weekdayOf
    set d := ((ts / 86400 - (ts / 86400 - 1) % 7) * 86400 -
        (s.start / 86400 - (s.start / 86400 - 1) % 7) * 86400) / 86400 / 7 with hd
    set z := d % s.interval with hz
    have he : ((s.start / 86400 - (s.start / 86400 - 1) % 7) * 86400 + 86400 * (7 * (d - z)) -
        (s.start / 86400 - (s.start / 86400 - 1) % 7) * 86400) / (7 * 86400) = d - z := by
      omega
    rw [he, hz]
    exact sub_emod_self d s.interval
  case monthly =>
    unfold periodsBetween Schedule.get_interval Schedule.start_of_period
    rw [hk]
    dsimp only
    unfold truncMonth
    set μs := monthIdx (rdOf s.start) with hμs
    set μt := monthIdx (rdOf ts) with hμt
    have hrs : rdOf (monthStart μs * 86400) = monthStart μs := by unfold rdOf; omega
    have hrt : rdOf (monthStart μt * 86400) = monthStart μt := by unfold rdOf; omega
    rw [hrs, hrt, fromRd_monthStart μs, fromRd_monthStart μt]
    dsimp only
    rw [show (μt / 12 - μs / 12) * 12 + (μt % 12 + 1 - (μs % 12 + 1)) = μt - μs by omega]
    set z := (μt - μs) % s.interval with hz
    rw [addMonths_monthStart μs (μt - μs - z)]
    have hr1 : rdOf (monthStart (μs + (μt - μs - z)) * 86400) =
        monthStart (μs + (μt - μs - z)) := by unfold rdOf; omega
    rw [hr1, monthIdx_monthStart, monthIdx_monthStart]
    rw [show μs + (μt - μs - z) - μs = μt - μs - z by ring, hz]
    exact sub_emod_self (μt - μs) s.interval
  case yearly =>
    unfold periodsBetween Schedule.get_interval Schedule.start_of_period
    rw [hk]
    dsimp only
    unfold truncYear
    set ys := (fromRd (rdOf s.start)).1 with hys
    set yt := (fromRd (rdOf ts)).1 with hyt
    have hrs : rdOf (yearStart ys * 86400) = yearStart ys := by unfold rdOf; omega
    have hrt : rdOf (yearStart yt * 86400) = yearStart yt := by unfold rdOf; omega
    rw [hrs, hrt, fromRd_yearStart ys, fromRd_yearStart yt]
    dsimp only
    set z := (yt - ys) % s.interval with hz
    rw [addYears_yearStart ys (yt - ys - z)]
    have hr1 : rdOf (yearStart (ys + (yt - ys - z)) * 86400) =
        yearStart (ys + (yt - ys - z)) := by unfold rdOf; omega
    rw [hr1, fromRd_yearStart (ys + (yt - ys - z))]
    dsimp only
    rw [show ys + (yt - ys - z) - ys = yt - ys - z by ring, hz]
    exact sub_emod_self (yt - ys) s.interval

/-- Witness for C6 at the daily schedule `dSteps` with a reference
instant one year before its start. -/
theorem C6_witness :
    Valid dSteps ∧ dSteps.sType ≠ SType.once ∧
    (periodsBetween dSteps (Schedule.start_of_period dSteps dSteps.start)
        (Schedule.get_interval dSteps t2011jan1) % dSteps.interval = 0 ∧
      Schedule.get_interval dSteps t2011jan1 ≤ Schedule.start_of_period dSteps t2011jan1 ∧
      Schedule.start_of_period dSteps t2011jan1 < Schedule.next_interval dSteps t2011jan1) :=
  ⟨by unfold Valid; decide, by decide,
    C6_get_interval_on_grid dSteps t2011jan1 (by unfold Valid; decide) (by decide)⟩

theorem pairwise_lt_insD (a : Int) (l : List Int) (h : l.Pairwise (· < ·)) :
    (insD a l).Pairwise (· < ·) := by
  induction l with
  | nil => simp [insD]
  | cons y ys ih =>
    rw [List.pairwise_cons] at h
    unfold insD
    split_ifs with h1 h2
    · rw [List.pairwise_cons, List.pairwise_cons]
      refine ⟨?_, h.1, h.2⟩
      intro b hb
      rcases List.mem_cons.mp hb with rfl | hb2
      · exact h1
      · exact lt_trans h1 (h.1 b hb2)
    · rw [List.pairwise_cons]
      exact h
    · rw [List.pairwise_cons]
      refine ⟨?_, ih h.2⟩
      intro b hb
      rcases (insD_mem a ys b).mp hb with rfl | hb2
      · omega
      · exact h.1 b hb2

theorem ite_insD_pairwise (c : Prop) [Decidable c] (a : Int) (l : List Int)
    (h : l.Pairwise (· < ·)) : (if c then insD a l else l).Pairwise (· < ·) := by
  split_ifs with hc
  · exact pairwise_lt_insD a l h
  · exact h

theorem daysAcc_pairwise (w : MWeeks) (sdow slw : Int) :
    ∀ (doms : List Int) (dow week : Int) (acc : List Int),
      acc.Pairwise (· < ·) →
      (Schedule.daysAcc w sdow slw doms dow week acc).Pairwise (· < ·) := by
  intro doms
  induction doms with
  | nil =>
    intro dow week acc h
    simpa [Schedule.daysAcc] using h
  | cons dom rest ih =>
    intro dow week acc h
    simp only [Schedule.daysAcc]
    exact ih _ _ _ (ite_insD_pairwise _ _ _ (ite_insD_pairwise _ _ _ h))

theorem foldr_insD_pairwise (l : List Int) : (l.foldr insD []).Pairwise (· < ·) := by
  induction l with
  | nil => simp
  | cons x t ih => exact pairwise_lt_insD x _ ih

theorem days_pairwise_monthly (s : Schedule) (ts : Int) (hk : s.sType = SType.monthly) :
    (s.days ts).Pairwise (· < ·) := by
  unfold Schedule.days
  rw [hk]
  dsimp only
  exact daysAcc_pairwise _ _ _ _ _ _ _ (foldr_insD_pairwise s.lDays)

theorem pairwise_eq_singleton (l : List Int) (d : Int) (hp : l.Pairwise (· < ·))
    (h : ∀ x, x ∈ l ↔ x = d) : l = [d] := by
  cases l with
  | nil => exact absurd ((h d).mpr rfl) (List.not_mem_nil d)
  | cons a t =>
    have ha : a = d := (h a).mp (List.mem_cons_self a t)
    rw [List.pairwise_cons] at hp
    cases t with
    | nil => rw [ha]
    | cons b t2 =>
      have hb : b = d := (h b).mp (by simp)
      have := hp.1 b (by simp)
      omega

/-- C7.  A monthly schedule whose only rule is week 5 for a single
weekday `w` (empty explicit day list) resolves, for every reference
instant, to exactly one day: the last day of the month falling on
weekday `w`, which lies in the final 7 days of the month. -/
theorem C7_week5_single_day :
    ∀ (s : Schedule) (ts w : Int), s.sType = SType.monthly → s.lDays = [] →
      s.weeks = ⟨[], [], [], [], [w]⟩ → 0 ≤ w → w ≤ 6 →
      ∃ d, s.days ts = [d] ∧ (monthrange ts).2 - 6 ≤ d ∧ d ≤ (monthrange ts).2 ∧
        ((monthrange ts).1 + (d - 1)) % 7 = w := by
  intro s ts w hk hld hwk hw0 hw6
  have hb1 := monthrange_fst_bounds ts
  have hb2 := monthrange_snd_bounds ts
  have hget : ∀ (k v : Int), v ∈ MWeeks.get ⟨[], [], [], [], [w]⟩ k ↔ (k = 5 ∧ v = w) := by
    intro k v
    unfold MWeeks.get
    split_ifs <;> simp_all
  refine ⟨(monthrange ts).2 - (((monthrange ts).1 + (monthrange ts).2 - 1 - w) % 7),
    ?_, by omega, by omega, by omega⟩
  apply pairwise_eq_singleton _ _ (days_pairwise_monthly s ts hk)
  intro x
  rw [days_mem_monthly s ts hk x, hld, hwk]
  simp only [hget, List.mem_nil_iff, false_or, true_and]
  constructor
  · rintro ⟨hx1, hx2, (⟨hno, hyes, hm⟩ | ⟨hx3, hm⟩)⟩
    · omega
    · omega
  · intro hx
    refine ⟨by omega, by omega, Or.inr ⟨by omega, by omega⟩⟩

/-- Witness for C7 at `mWeek5` (last-Friday rule) queried at its own
start, 2014-02-01 (February 2014, a 28-day month starting on a
Saturday). -/
theorem C7_witness :
    mWeek5.sType = SType.monthly ∧ mWeek5.lDays = [] ∧
    mWeek5.weeks = ⟨[], [], [], [], [4]⟩ ∧
    ∃ d, mWeek5.days mWeek5.start = [d] ∧
      (monthrange mWeek5.start).2 - 6 ≤ d ∧ d ≤ (monthrange mWeek5.start).2 ∧
      ((monthrange mWeek5.start).1 + (d - 1)) % 7 = 4 :=
  ⟨rfl, rfl, rfl, C7_week5_single_day mWeek5 mWeek5.start 4 rfl rfl rfl
    (by decide) (by decide)⟩

/-- C1.  Exact-match strictness fails: `mOverflow` is a valid monthly
schedule, 2011-10-01 10:00 is one of its occurrences (it is what
`next_step` returns from 2011-09-15 — September has no day 31, so the
day offset spills into October), yet `prev_step` at that very occurrence
returns the occurrence itself, not the one strictly before it. -/
theorem C1_prev_step_exact_match_not_strict :
    Valid mOverflow ∧
    mOverflow.next_step t2011sep15 = some t2011oct1 ∧
    mOverflow.prev_step t2011oct1 = some t2011oct1 :=
  ⟨by unfold Valid; decide, by decide, by decide⟩

/-- C2.  For the spec-modelled `first_step` (the source's line 266 does
not parse), `first_step` is `next_step (start - 1)` by definition and
any occurrence it returns is at least `start` (strict progress from the
reference `start - 1`). -/
theorem C2_first_step_lower_bound :
    ∀ (s : Schedule), Valid s →
      s.first_step = s.next_step (s.start - 1) ∧
      ∀ n, s.first_step = some n → s.start ≤ n := by
  intro s hv
  refine ⟨rfl, fun n hn => ?_⟩
  unfold Schedule.first_step at hn
  have := next_step_gt s hv (s.start - 1) n hn
  omega

/-- Witness for C2 at the daily schedule `dDaily`, whose first step is
its own start instant. -/
theorem C2_witness :
    Valid dDaily ∧
    dDaily.first_step = some dDaily.start ∧
    (dDaily.first_step = dDaily.next_step (dDaily.start - 1) ∧
      ∀ n, dDaily.first_step = some n → dDaily.start ≤ n) :=
  ⟨by unfold Valid; decide, by decide,
    C2_first_step_lower_bound dDaily (by unfold Valid; decide)⟩

/-- C3.  Clamping `prev_step` to `end + 1s` diverges on `mOverflowEnd`:
the candidate computed at `end + 1s` (2011-10-01 10:00, the overflowed
September step) again exceeds `end` (2011-10-01 00:30), so the search
re-runs with the very same reference forever — `prev_step_go` returns
`none` at every fuel and `last_step` yields nothing although the
schedule has occurrences (e.g. 2011-07-31 10:00 lies before `end`). -/
theorem C3_last_step_diverges :
    Valid mOverflowEnd ∧
    (∀ fuel : Nat, Schedule.prev_step_go mOverflowEnd fuel (tOct1half + 1) = none) ∧
    mOverflowEnd.last_step = none := by
  have h2 : ∀ fuel : Nat,
      Schedule.prev_step_go mOverflowEnd fuel (tOct1half + 1) = none := by
    intro fuel
    induction fuel with
    | zero => rfl
    | succ fuel ih =>
      have h1 : Schedule.prev_candidate mOverflowEnd (tOct1half + 1) = t2011oct1 := by
        decide
      simp only [Schedule.prev_step_go]
      rw [h1, if_neg (by decide), if_pos (by decide)]
      rw [show mOverflowEnd.end_.getD 0 + 1 = tOct1half + 1 from by decide]
      exact ih
  exact ⟨by unfold Valid; decide, h2, h2 Schedule.stepFuel⟩

/-- C8.  The factory does not aggregate all field violations: with an
undefined start and an out-of-range day 45 for a monthly schedule, the
reported error carries the start violation and the constructor's own
first-failure text, but no message about the `days` field — the
factory's day/weeks validation block is guarded by `and not days` and
never runs when an explicit day list is given. -/
theorem C8_day_range_violation_dropped :
    factory none none "monthly" 1 [45] [] =
      .error [Msg.fieldMsg "start" "undefined" none,
        Msg.textMsg "Must have a start date."] ∧
    ([Msg.fieldMsg "start" "undefined" none,
        Msg.textMsg "Must have a start date."].all fun m => ! m.isField "days") = true :=
  ⟨rfl, by decide⟩

/-- C9.  The factory accepts a negative interval: `not interval` only
catches `interval = 0`, so a daily schedule with interval `-2` is
constructed successfully, violating the `interval ≥ 1` invariant. -/
theorem C9_negative_interval_accepted :
    factory (some t2011jan1) none "daily" (-2) [] [] =
      .ok ⟨.daily, t2011jan1, none, -2, [0], ⟨[], [], [], [], []⟩⟩ ∧
    ¬ (1 ≤ (-2 : Int)) :=
  ⟨rfl, by decide⟩

/-- C10.  `Once.__init__` sets `end` to `start`; consequently
`last_step` returns the single scheduled instant itself (via
`prev_step(start + 1s)`), and `next_step ts` is `none` for every `ts ≥`
that instant (the strictly later candidate always exceeds `end =
start`). -/
theorem C10_once_end_eq_start :
    ∀ (t : Int) (s : Schedule), mkOnce (some t) = .ok s →
      s.end_ = some s.start ∧
      s.last_step = some s.start ∧
      ∀ ts, s.start ≤ ts → s.next_step ts = none := by
  intro t s he
  simp only [mkOnce, Option.getD_some, Except.ok.injEq] at he
  subst he
  refine ⟨rfl, ?_, ?_⟩
  · have hps : Schedule.prev_candidate ⟨.once, t, some t, 1, [0], ⟨[], [], [], [], []⟩⟩
        (t + 1) = t := by
      unfold Schedule.prev_candidate Schedule.start_of_period
        Schedule.period_day Schedule.days Schedule.last_interval Schedule.offset
      dsimp only
      unfold Schedule.get_interval
      dsimp only
      unfold combine addDays truncDay rdOf timeOf
      simp only [show ([0] : List Int).headD 0 = 0 from rfl,
        show ([0] : List Int).getLastD 0 = 0 from rfl,
        show Schedule.prevWalkDay [0] (0 - 1) = 0 from rfl,
        show Schedule.prevWalkDay [0] 0 = 0 from rfl]
      split_ifs <;> omega
    unfold Schedule.last_step Schedule.prev_step
    dsimp only
    rw [show Schedule.stepFuel = 8 + 1 from rfl]
    simp only [Schedule.prev_step_go]
    rw [hps]
    rw [if_neg (show ¬ (t < (⟨.once, t, some t, 1, [0],
      ⟨[], [], [], [], []⟩⟩ : Schedule).start) from lt_irrefl t)]
    rw [if_neg (by simp [Schedule.endExceeded])]
  · intro ts hts
    have hvo : Valid ⟨.once, t, some t, 1, [0], ⟨[], [], [], [], []⟩⟩ := by
      unfold Valid validb
      simp
    have hc := next_candidate_gt _ ts hvo
    unfold Schedule.next_step
    rw [show Schedule.stepFuel = 8 + 1 from rfl]
    simp only [Schedule.next_step_go]
    rw [if_pos (by
      have hts2 : t ≤ ts := hts
      simp only [Schedule.endExceeded]
      rw [decide_eq_true_eq]
      omega)]

/-- Witness for C10 at the concrete Once schedule `oOnce` built from
2011-01-01 10:00. -/
theorem C10_witness :
    mkOnce (some t2011jan1) = .ok oOnce ∧
    (oOnce.end_ = some oOnce.start ∧
      oOnce.last_step = some oOnce.start ∧
      ∀ ts, oOnce.start ≤ ts → oOnce.next_step ts = none) :=
  ⟨rfl, C10_once_end_eq_start t2011jan1 oOnce rfl⟩
